import Mathlib

/-! The repository mpaa_ml: the scraper, the feature generator and the feature join.

A shallow embedding of `scripts/imsdb.go`, `scripts/generate_features.go` and
`scripts/join_features.go`, with the properties of their specification proved
over it.

Conventions of the embedding:

* a Go `string` or byte buffer is a `Str`, a list of Unicode code points (the
  text is taken to be valid UTF-8, on which Go's byte order and the code point
  order agree);
* a `*html.Node` is an `Option Node`; a non-nil node carries its `Type`, its
  `Data` and the list of its children, which stands for the chain
  `FirstChild`, `NextSibling`, ...;
* the network, the HTML parser and the outcome of each file operation are an
  explicit environment `Env`; the file system is a map from names to contents.
-/

namespace MpaaML

/-- A Go string: its sequence of code points. -/
abbrev Str := List Char

/-! ## The document tree (`golang.org/x/net/html`) -/

/-- The discriminant `html.NodeType`. -/
inductive NodeType
  | ErrorNode
  | TextNode
  | DocumentNode
  | ElementNode
  | CommentNode
  | DoctypeNode
  deriving DecidableEq, Repr

/-- A non-nil `html.Node`: its `Type`, its `Data` and its children in document
order (`FirstChild` is the head of the list, `NextSibling` walks its tail). -/
inductive Node
  | mk (type : NodeType) (data : Str) (children : List Node)

namespace Node

/-- The field `Type`. -/
def type : Node → NodeType
  | mk t _ _ => t

/-- The field `Data`. -/
def data : Node → Str
  | mk _ d _ => d

/-- The children, from `FirstChild` along `NextSibling`. -/
def children : Node → List Node
  | mk _ _ cs => cs

mutual
/-- The nodes of a tree in depth-first pre-order: the node, then the nodes of
each child's subtree, the children taken in document order. -/
def preorder : Node → List Node
  | mk t d cs => mk t d cs :: preorderAll cs
/-- The pre-order enumerations of a list of sibling trees, one after another. -/
def preorderAll : List Node → List Node
  | [] => []
  | c :: cs => preorder c ++ preorderAll cs
end

end Node

/-! ## `imsdb.go`: the tree walker -/

mutual
/-- The body of `findAllNodes` for a non-nil root: test the root, then run the
loop over its children. -/
def findAllNodesFrom (selector : Node → Bool) : Node → List Node
  | .mk t d cs =>
    findAllNodesLoop selector cs (if selector (.mk t d cs) then [.mk t d cs] else [])
/-- The loop `for next := root.FirstChild; next != nil; next = next.NextSibling`
of `findAllNodes`: the first argument is the chain starting at `next`, the
second the slice `nodes` collected so far. -/
def findAllNodesLoop (selector : Node → Bool) : List Node → List Node → List Node
  | [], nodes => nodes
  | next :: rest, nodes =>
    findAllNodesLoop selector rest (nodes ++ findAllNodesFrom selector next)
end

/-- The function `findAllNodes`: a nil root gives no node. -/
def findAllNodes (root : Option Node) (selector : Node → Bool) : List Node :=
  match root with
  | none => []
  | some r => findAllNodesFrom selector r

mutual
/-- The function `parseContents` on a non-nil root: the buffer after the call,
given the buffer before it. -/
def parseContents : Node → Str → Str
  | .mk t d cs, contents =>
    parseContentsLoop cs (if t ≠ NodeType.ElementNode then contents ++ d else contents)
/-- The loop over the children of `parseContents`. -/
def parseContentsLoop : List Node → Str → Str
  | [], contents => contents
  | next :: rest, contents => parseContentsLoop rest (parseContents next contents)
end

/-- The selector that `scrapeScript` passes to `findAllNodes`: an element
`pre` that has a first child. -/
def scriptSelector (n : Node) : Bool :=
  if n.type = NodeType.ElementNode ∧ n.data = "pre".toList then
    if !n.children.isEmpty then true else false
  else false

/-- The decimal rendering of `%d` for a non-negative integer. -/
def fmtNat (n : Nat) : Str := Nat.toDigits 10 n

/-- The end of `scrapeScript`, from the parsed root on: the selection of the
script node among the matches. -/
def selectScript (root : Node) : Except Str Node :=
  let scriptNodes := findAllNodes (some root) scriptSelector
  if scriptNodes.length ≠ 1 then
    .error ("expected 1 node when scraping script, found ".toList ++ fmtNat scriptNodes.length)
  else
    match scriptNodes with
    | node :: _ => .ok node
    | [] => .error []

/-! ## The Go library functions the scripts call -/

/-- The predicate `unicode.IsSpace`: the code points with the property
White_Space. -/
def isSpace (c : Char) : Bool :=
  let n := c.toNat
  (9 ≤ n && n ≤ 13) || n == 32 || n == 133 || n == 160 || n == 5760 ||
  (8192 ≤ n && n ≤ 8202) || n == 8232 || n == 8233 || n == 8239 || n == 8287 || n == 12288

/-- The function `unicode.ToLower`: an ASCII capital is moved to its small
letter and every other ASCII character is kept; outside ASCII the result is
read in the Unicode case tables, which are the parameter `caseTable`. -/
def unicodeToLower (caseTable : Char → Char) (c : Char) : Char :=
  if c.toNat ≤ 127 then
    if 'A'.toNat ≤ c.toNat ∧ c.toNat ≤ 'Z'.toNat then Char.ofNat (c.toNat + 32) else c
  else caseTable c

/-- The function `strings.ToLower`: `unicode.ToLower` on every code point. -/
def stringsToLower (caseTable : Char → Char) (s : Str) : Str :=
  s.map (unicodeToLower caseTable)

/-- The call `strings.Replace(s, old, new, -1)` for one-character `old` and
`new`: every occurrence is replaced. -/
def stringsReplace (s : Str) (old new : Char) : Str :=
  s.map (fun c => if c = old then new else c)

/-- The function `strings.TrimSpace`: leading and trailing white space
removed. -/
def stringsTrimSpace (s : Str) : Str :=
  ((s.dropWhile isSpace).reverse.dropWhile isSpace).reverse

/-- The call `strings.Split(s, sep)` for a one-character separator: the
fields between the separators, one more than there are separators. -/
def stringsSplit (sep : Char) : Str → List Str
  | [] => [[]]
  | c :: cs =>
    if c = sep then [] :: stringsSplit sep cs
    else
      match stringsSplit sep cs with
      | [] => [[c]]
      | w :: ws => (c :: w) :: ws

/-- The scan of `strings.Fields`: `cur` is the field being read (reversed). -/
def stringsFieldsAux : Str → Str → List Str
  | [], cur => if cur.isEmpty then [] else [cur.reverse]
  | c :: cs, cur =>
    if isSpace c then
      if cur.isEmpty then stringsFieldsAux cs [] else cur.reverse :: stringsFieldsAux cs []
    else stringsFieldsAux cs (c :: cur)

/-- The function `strings.Fields`: the maximal runs of non-space characters. -/
def stringsFields (s : Str) : List Str := stringsFieldsAux s []

/-- The call `strings.Join(elems, sep)`. -/
def stringsJoin (sep : Str) : List Str → Str
  | [] => []
  | [a] => a
  | a :: b :: rest => a ++ sep ++ stringsJoin sep (b :: rest)

/-! ## `imsdb.go`: the fetcher -/

/-- What `http.Get` followed by `html.Parse` gives for an endpoint: an error of
the transport, or a response with its `StatusCode` and the result of parsing
its body. -/
inductive HttpResult
  | failed (err : Str)
  | response (statusCode : Nat) (parsed : Except Str Node)

/-- The constant `imsdbScriptEndpoint` with the title filled in. -/
def imsdbScriptEndpoint (formattedTitle : Str) : Str :=
  "https://www.imsdb.com/scripts/".toList ++ formattedTitle ++ ".html".toList

/-- The function `scrapeScript`, over what the network answers. -/
def scrapeScript (httpGet : Str → HttpResult) (title : Str) : Except Str Node :=
  let formattedTitle := stringsReplace title ' ' '_'
  let endpoint := imsdbScriptEndpoint formattedTitle
  match httpGet endpoint with
  | .failed err => .error err
  | .response statusCode parsed =>
    if statusCode ≠ 200 then
      .error ("unexpected status code ".toList ++ fmtNat statusCode)
    else
      match parsed with
      | .error err => .error err
      | .ok root => selectScript root

/-! ## `imsdb.go`: the reporter -/

/-- A call of the reporter: `printScrapeFailure(title, typ, msg)` or
`printScrapeSuccess(title)`. -/
inductive Report
  | failure (title typ msg : Str)
  | success (title : Str)
  deriving DecidableEq

/-! ## `imsdb.go`: the worker -/

/-- The file system: the contents of each file that exists. -/
abbrev FileSystem := Str → Option Str

/-- The file system after `name` has been given the contents `data`. -/
def FileSystem.write (fs : FileSystem) (name data : Str) : FileSystem :=
  fun p => if p = name then some data else fs p

/-- An effect a worker attempts on the world outside. -/
inductive Op
  | openFile (name : Str)
  | scrape (title : Str)
  | create (name : Str)
  | write (name data : Str)
  deriving DecidableEq

/-- The world as one work item meets it: the network, and for each of the
five file operations the error it ends with, if any. For `os.Open` this is an
error other than the absence of the file (no permission, too many open
files). A failed write comes with the number of bytes that reached the
file. -/
structure Env where
  httpGet : Str → HttpResult
  openMeta : Option Str
  createTxt : Option Str
  writeTxt : Option (Nat × Str)
  createMeta : Option Str
  writeMeta : Option (Nat × Str)

/-- The state after a work item: the file system, the reports made and the
effects attempted, both in order. -/
structure Outcome where
  fs : FileSystem
  out : List Report
  ops : List Op

/-- The variable `title` of the worker: the first field, trimmed. -/
def lineTitle (line : Str) : Str :=
  stringsTrimSpace ((stringsSplit ',' line).getD 0 [])

/-- The variable `filename` of the worker: the title in lower case, each
space replaced by an underscore. -/
def lineFilename (caseTable : Char → Char) (line : Str) : Str :=
  stringsReplace (stringsToLower caseTable (lineTitle line)) ' ' '_'

/-- The variable `filenameTxt`. -/
def filenameTxt (caseTable : Char → Char) (line : Str) : Str :=
  lineFilename caseTable line ++ ".txt".toList

/-- The variable `filenameMeta`. -/
def filenameMeta (caseTable : Char → Char) (line : Str) : Str :=
  lineFilename caseTable line ++ ".meta".toList

/-- The test `err == nil` on the result of `os.Open(name)`: the file is opened
when it exists and the world raises no error of its own. -/
def opens (fs : FileSystem) (openError : Option Str) (name : Str) : Bool :=
  (fs name).isSome && openError.isNone

/-- The body of the worker's loop `for line := range sch` for one line.
`os.Open` fails on a file that does not exist and may fail on one that does,
`os.Create` gives an empty file, a failed `os.Create` leaves the file system
as it was, and a failed write leaves the bytes that were written. -/
def processLine (caseTable : Char → Char) (env : Env) (fs : FileSystem) (line : Str) :
    Outcome :=
  let terms := stringsSplit ',' line
  if terms.length ≠ 3 then
    { fs := fs
      out := [Report.failure "[unknown]".toList [] "invalid input line".toList]
      ops := [] }
  else
    let title := lineTitle line
    let fTxt := filenameTxt caseTable line
    let fMeta := filenameMeta caseTable line
    if opens fs env.openMeta fMeta then
      { fs := fs
        out := [Report.failure title [] "script already found".toList]
        ops := [Op.openFile fMeta] }
    else
      match scrapeScript env.httpGet title with
      | .error err =>
        { fs := fs
          out := [Report.failure title "scrape error".toList err]
          ops := [Op.openFile fMeta, Op.scrape title] }
      | .ok scriptNode =>
        let buf := parseContents scriptNode []
        match env.createTxt with
        | some err =>
          { fs := fs
            out := [Report.failure title "file txt open".toList err]
            ops := [Op.openFile fMeta, Op.scrape title, Op.create fTxt] }
        | none =>
          match env.writeTxt with
          | some (n, err) =>
            { fs := fs.write fTxt (buf.take n)
              out := [Report.failure title "file txt write".toList err]
              ops := [Op.openFile fMeta, Op.scrape title, Op.create fTxt, Op.write fTxt buf] }
          | none =>
            let fs1 := fs.write fTxt buf
            match env.createMeta with
            | some err =>
              { fs := fs1
                out := [Report.failure title "file meta open".toList err]
                ops := [Op.openFile fMeta, Op.scrape title, Op.create fTxt, Op.write fTxt buf,
                  Op.create fMeta] }
            | none =>
              match env.writeMeta with
              | some (n, err) =>
                { fs := fs1.write fMeta ((line ++ ['\n']).take n)
                  out := [Report.failure title "file meta write".toList err]
                  ops := [Op.openFile fMeta, Op.scrape title, Op.create fTxt,
                    Op.write fTxt buf, Op.create fMeta, Op.write fMeta (line ++ ['\n'])] }
              | none =>
                { fs := fs1.write fMeta (line ++ ['\n'])
                  out := [Report.success title]
                  ops := [Op.openFile fMeta, Op.scrape title, Op.create fTxt,
                    Op.write fTxt buf, Op.create fMeta, Op.write fMeta (line ++ ['\n'])] }

/-! ## Go maps and integers -/

/-- A Go `map[string]int`: the entries, each key at most once among the
entries that count (a lookup reads the first entry of a key). -/
abbrev CountMap := List (Str × Int)

namespace CountMap

/-- The lookup `m[k]`: the zero value when the key is absent. -/
def get : CountMap → Str → Int
  | [], _ => 0
  | (k', v) :: rest, k => if k' = k then v else get rest k

/-- The test `_, ok := m[k]`. -/
def has : CountMap → Str → Bool
  | [], _ => false
  | (k', _) :: rest, k => if k' = k then true else has rest k

/-- The assignment `m[k] = v`: the entry of `k` is replaced, or a new entry is
added. -/
def set : CountMap → Str → Int → CountMap
  | [], k, v => [(k, v)]
  | (k', v') :: rest, k, v => if k' = k then (k', v) :: rest else (k', v') :: set rest k v

/-- The keys, as `for k := range m` meets them (in an order Go leaves
unspecified; here the order of insertion). -/
def keys (m : CountMap) : List Str := m.map Prod.fst

end CountMap

/-- The call `sort.Strings`: the strings in ascending order. -/
def sortStrings (l : List Str) : List Str := l.insertionSort (fun a b => a ≤ b)

/-- The rendering `%d` of an `int`. -/
def fmtInt (i : Int) : Str :=
  if i < 0 then '-' :: Nat.toDigits 10 i.natAbs else Nat.toDigits 10 i.natAbs

/-! ## `generate_features.go` -/

/-- The class `[a-zA-Z0-9]` whose complement `normRegex` matches. -/
def isAlnum (c : Char) : Bool :=
  ('a'.toNat ≤ c.toNat && c.toNat ≤ 'z'.toNat) ||
  ('A'.toNat ≤ c.toNat && c.toNat ≤ 'Z'.toNat) ||
  ('0'.toNat ≤ c.toNat && c.toNat ≤ '9'.toNat)

/-- The function `normalizeWord`: the word in lower case, every run of
characters outside `[a-zA-Z0-9]` replaced by the empty string. -/
def normalizeWord (caseTable : Char → Char) (word : Str) : Str :=
  (stringsToLower caseTable word).filter isAlnum

/-- The statement `featureCounts[k]++` guarded by the presence test, as
written twice in `generateFeatures`. -/
def increment (featureCounts : CountMap) (k : Str) : CountMap :=
  if featureCounts.has k then featureCounts.set k (featureCounts.get k + 1)
  else featureCounts.set k 1

/-- The variables that the loop of `generateFeatures` carries. -/
structure CountState where
  featureCounts : CountMap
  lastWord : Str
  currentWord : Str

/-- One round of the loop `for _, word := range textWords`. -/
def countWord (caseTable : Char → Char) (st : CountState) (word : Str) : CountState :=
  let word := normalizeWord caseTable word
  if word = [] then st
  else
    let featureCounts := increment st.featureCounts word
    let lastWord := st.currentWord
    let currentWord := word
    if lastWord = [] ∨ currentWord = [] then
      { featureCounts := featureCounts, lastWord := lastWord, currentWord := currentWord }
    else
      let bigram := lastWord ++ "_".toList ++ currentWord
      { featureCounts := increment featureCounts bigram
        lastWord := lastWord
        currentWord := currentWord }

/-- The map `featureCounts` when the loop of `generateFeatures` ends. -/
def featureCounts (caseTable : Char → Char) (textBytes : Str) : CountMap :=
  ((stringsFields textBytes).foldl (countWord caseTable)
    { featureCounts := [], lastWord := [], currentWord := [] }).featureCounts

/-- The slice `features` of `generateFeatures` after `sort.Strings`. -/
def featureNames (caseTable : Char → Char) (textBytes : Str) : List Str :=
  sortStrings (featureCounts caseTable textBytes).keys

/-- The function `generateFeatures`, from the contents of the `.meta` and the
`.txt` file to the contents of `features-{title}.csv`; the files are read and
created without error. The result is `none` when `metaTerms[1]` is out of
range, where the program panics. Counts stay far below the range of `int`. -/
def generateFeatures (caseTable : Char → Char) (metaBytes textBytes : Str) : Option Str :=
  let metaTerms := stringsSplit ',' metaBytes
  let counts := featureCounts caseTable textBytes
  let features := featureNames caseTable textBytes
  let names := "content_rating,".toList ++ stringsJoin ",".toList features ++ "\n".toList
  match metaTerms.get? 1 with
  | none => none
  | some rating =>
    some (features.foldl (fun file f => file ++ ",".toList ++ fmtInt (counts.get f))
      (names ++ rating) ++ "\n".toList)

/-! ## `join_features.go` -/

/-- The arithmetic of `int` on a 64-bit platform: a result outside the range
wraps around. -/
def wrapInt (x : Int) : Int := (x + 2 ^ 63) % 2 ^ 64 - 2 ^ 63

/-- The type `movie`. -/
structure Movie where
  title : Str
  contentRating : Str
  features : CountMap

/-- The entry `featureOccurrences[f]` when the first loop of
`outerJoinMovies` ends: it starts at 0 and is incremented for each movie
whose count of `f` is positive. It is at most `len(movies)`. -/
def featureOccurrences (movies : List Movie) (f : Str) : Int :=
  movies.foldl (fun c m => if m.features.get f > 0 then c + 1 else c) 0

/-- The condition under which `outerJoinMovies` deletes a feature that
occurs in `c` of the movies. -/
def deleted (movies : List Movie) (pctMin pctMax c : Int) : Bool :=
  decide (wrapInt (c * 100) < wrapInt ((movies.length : Int) * pctMin)) ||
  decide (wrapInt (c * 100) > wrapInt ((movies.length : Int) * pctMax))

/-- The slice `featuresSorted` of `outerJoinMovies`: the keys that are left in
`featureSet` (given by its keys), sorted. -/
def featuresSorted (movies : List Movie) (featureSet : List Str) (pctMin pctMax : Int) :
    List Str :=
  sortStrings
    (featureSet.filter (fun f => !deleted movies pctMin pctMax (featureOccurrences movies f)))

/-- The record that `outerJoinMovies` writes for one movie, appended to the
buffer. -/
def writeRecord (columns : List Str) (buf : Str) (m : Movie) : Str :=
  columns.foldl (fun buf f => buf ++ ",".toList ++ fmtInt (m.features.get f))
    (buf ++ (m.title ++ ",".toList ++ m.contentRating)) ++ "\n".toList

/-- The function `outerJoinMovies`; the set `featureSet` is given by its
keys. -/
def outerJoinMovies (movies : List Movie) (featureSet : List Str) (pctMin pctMax : Int) :
    Str :=
  let columns := featuresSorted movies featureSet pctMin pctMax
  movies.foldl (writeRecord columns)
    ("title,content_rating,".toList ++ stringsJoin ",".toList columns ++ "\n".toList)

/-- The number of movies whose count for `f` is positive. -/
def occurrences (movies : List Movie) (f : Str) : Nat :=
  (movies.filter (fun m => decide (m.features.get f > 0))).length

/-! ## The features as the specification names them -/

/-- The words `w1..wn` of a script: its white-space separated tokens after
`normalizeWord`, the tokens that normalize to the empty string dropped. -/
def scriptWords (caseTable : Char → Char) (textBytes : Str) : List Str :=
  ((stringsFields textBytes).map (normalizeWord caseTable)).filter (fun w => decide (w ≠ []))

/-- The pairs `(wi, w(i+1))` of neighbouring words. -/
def neighbours (ws : List Str) : List (Str × Str) := ws.zip ws.tail

/-- The bigram key `a_b`. -/
def bigramKey (a b : Str) : Str := a ++ "_".toList ++ b

/-- The keys that the loop of `generateFeatures` increments, in order, on the
words `ws` when the word before them is `prev` (empty when there is none). -/
def emittedKeys : Str → List Str → List Str
  | _, [] => []
  | prev, w :: ws =>
    if prev = [] then w :: emittedKeys w ws
    else w :: bigramKey prev w :: emittedKeys w ws

/-! ## `imsdb.go`: what the reporter prints, and the worker's loop -/

/-- The call `fmt.Sprintf(format, args...)` for the verb `%s` with string
operands: each `%s` is replaced by the next operand, every other character is
copied. -/
def fmtSprintf : Str → List Str → Str
  | [], _ => []
  | '%' :: 's' :: rest, arg :: args => arg ++ fmtSprintf rest args
  | '%' :: 's' :: rest, [] => "%!s(MISSING)".toList ++ fmtSprintf rest []
  | c :: rest, args => c :: fmtSprintf rest args

/-- The function `printScrapeFailure`: the bytes it writes to the standard
output while it holds `stdoutMutex`. -/
def printScrapeFailure (title typ msg : Str) : Str :=
  if typ ≠ [] then fmtSprintf "failure:\t%s\t%s:%s\n".toList [title, typ, msg]
  else fmtSprintf "failure:\t%s\t%s\n".toList [title, msg]

/-- The function `printScrapeSuccess`: the bytes it writes to the standard
output while it holds `stdoutMutex`. -/
def printScrapeSuccess (title : Str) : Str :=
  fmtSprintf "success:\t%s\n".toList [title]

/-- The bytes that a call of the reporter writes. -/
def Report.line : Report → Str
  | .failure title typ msg => printScrapeFailure title typ msg
  | .success title => printScrapeSuccess title

/-- The loop `for line := range sch` of one worker, over the lines it
receives, each with the world it meets: the state after the last line. -/
def worker (caseTable : Char → Char) : List (Str × Env) → Outcome → Outcome
  | [], st => st
  | (line, env) :: rest, st =>
    let r := processLine caseTable env st.fs line
    worker caseTable rest { fs := r.fs, out := st.out ++ r.out, ops := st.ops ++ r.ops }

/-- The state in which a worker starts. -/
def startOf (fs : FileSystem) : Outcome := { fs := fs, out := [], ops := [] }

/-- The class `[a-z0-9]`: the small letters and the digits. -/
def isLowerOrDigit (c : Char) : Bool :=
  ('a'.toNat ≤ c.toNat && c.toNat ≤ 'z'.toNat) ||
  ('0'.toNat ≤ c.toNat && c.toNat ≤ '9'.toNat)

/-! ## `imsdb.go`: the dispatcher -/

/-- The constant `defaultBufSize` of `bufio`: the size of the buffer of
`bufio.NewReader`. -/
def defaultBufSize : Nat := 4096

/-- The method `bufio.Reader.ReadLine` on the bytes not read yet: the line
returned, the flag `isPrefix` and the bytes left for the next call. A line
ends at `\n` and is returned without its `\n` or `\r\n`; when the buffer
fills before a `\n` is met, the buffer is returned with `isPrefix` set (a
last `\r` is left for the next call); at the end of the stream the rest is
returned, and the empty line once nothing is left. The stream is taken to be
ASCII, so that the bytes of the buffer are as many characters. -/
def readLine (input : Str) : Str × Bool × Str :=
  let window := input.take defaultBufSize
  if '\n' ∈ window then
    let line := input.takeWhile (fun c => c ≠ '\n')
    let rest := (input.dropWhile (fun c => c ≠ '\n')).drop 1
    (if line.getLast? = some '\r' then line.dropLast else line, false, rest)
  else if defaultBufSize ≤ input.length then
    if window.getLast? = some '\r' then
      (window.dropLast, true, input.drop (defaultBufSize - 1))
    else (window, true, input.drop defaultBufSize)
  else (input, false, [])

/-- The loop `for line, _, _ := inputReader.ReadLine(); len(line) != 0; ...`
of `main`: the items sent on `sch`, in order. Each round consumes input, so
`fuel` rounds suffice for an input shorter than `fuel`. -/
def dispatchLoop : Nat → Str → List Str
  | 0, _ => []
  | fuel + 1, input =>
    let r := readLine input
    if r.1.length ≠ 0 then r.1 :: dispatchLoop fuel r.2.2 else []

/-- The items that the dispatcher sends for an input stream. -/
def dispatch (input : Str) : List Str := dispatchLoop (input.length + 1) input

/-! ## `join_features.go`: `main` -/

/-- The scan of `strings.Replace(s, old, new, -1)` for a non-empty `old`:
`skip` counts the characters of a match that are still to be passed over. -/
def stringsReplaceAllAux (old new : Str) : Nat → Str → Str
  | _, [] => []
  | skip + 1, _ :: cs => stringsReplaceAllAux old new skip cs
  | 0, c :: cs =>
    if old.isPrefixOf (c :: cs) then new ++ stringsReplaceAllAux old new (old.length - 1) cs
    else c :: stringsReplaceAllAux old new 0 cs

/-- The call `strings.Replace(s, old, new, -1)` for a non-empty `old`: the
occurrences of `old`, taken from the left without overlap, are replaced. -/
def stringsReplaceAll (s old new : Str) : Str := stringsReplaceAllAux old new 0 s

/-- The method `bufio.Reader.ReadString` for a delimiter: the bytes up to
the delimiter and with it (all that is left when there is none), and the bytes
that follow. -/
def readString (delim : Char) : Str → Str × Str
  | [] => ([], [])
  | c :: cs =>
    if c = delim then ([c], cs)
    else ((c :: (readString delim cs).1), (readString delim cs).2)

/-- The value of a string of decimal digits; `none` when a character is no
digit. -/
def parseDigits : Str → Nat → Option Nat
  | [], acc => some acc
  | c :: cs, acc =>
    if '0'.toNat ≤ c.toNat ∧ c.toNat ≤ '9'.toNat then
      parseDigits cs (acc * 10 + (c.toNat - '0'.toNat))
    else none

/-- The first result of `strconv.Atoi`, the error being dropped: 0 when the
string is no decimal integer (an optional sign, then digits), the nearest
`int` when the integer is out of range. -/
def strconvAtoi (s : Str) : Int :=
  let negative := s.head? = some '-'
  let digits := if s.head? = some '-' ∨ s.head? = some '+' then s.tail else s
  if digits = [] then 0
  else
    match parseDigits digits 0 with
    | none => 0
    | some n =>
      if negative then (if n > 2 ^ 63 then -(2 ^ 63) else -(n : Int))
      else (if n > 2 ^ 63 - 1 then 2 ^ 63 - 1 else (n : Int))

/-- An entry of the input directory as `main` meets it: its name, whether it
is a directory, and its contents (`none` when `os.Open` fails). -/
structure DirEntry where
  name : Str
  isDir : Bool
  contents : Option Str

/-- The ways in which `main` stops before it prints the CSV: `exitError`
with a message, or a panic on an index out of range. -/
inductive Stop
  | exit (msg : Str)
  | panic
  deriving DecidableEq

/-- The variables `featureSet` (by its keys) and `movies` of `main`. -/
structure JoinState where
  featureSet : List Str
  movies : List Movie

/-- The assignment `featureSet[k] = struct{}{}`. -/
def setInsert (featureSet : List Str) (k : Str) : List Str :=
  if k ∈ featureSet then featureSet else featureSet ++ [k]

/-- The loop `for i := range features[1:]` of `main` from the index `i` on;
`names` is `features[i+1:]`. The index `featureValues[i+1]` panics when it is
out of range. -/
def readColumns (featureValues : List Str) :
    Nat → List Str → List Str → CountMap → Except Stop (List Str × CountMap)
  | _, [], featureSet, features => .ok (featureSet, features)
  | i, name :: names, featureSet, features =>
    match featureValues.get? (i + 1) with
    | none => .error Stop.panic
    | some value =>
      readColumns featureValues (i + 1) names (setInsert featureSet name)
        (features.set name (strconvAtoi value))

/-- The body of the loop `for _, f := range files` of `main`. -/
def readFile (st : JoinState) (f : DirEntry) : Except Stop JoinState :=
  if f.isDir then .ok st
  else
    let title := stringsReplaceAll (stringsReplaceAll f.name "features-".toList [])
      ".csv".toList []
    match f.contents with
    | none => .error (Stop.exit ("could not open file ".toList ++ f.name))
    | some bytes =>
      let features := stringsSplit ',' (readString '\n' bytes).1
      let featureValues := stringsSplit ',' (readString '\n' (readString '\n' bytes).2).1
      if features.getD 0 [] ≠ "content_rating".toList then
        .error (Stop.exit "first feature must be 'content_rating'".toList)
      else
        match readColumns featureValues 0 features.tail st.featureSet [] with
        | .error stop => .error stop
        | .ok (featureSet, counts) =>
          .ok { featureSet := featureSet
                movies := st.movies ++
                  [{ title := title, contentRating := featureValues.getD 0 [],
                     features := counts }] }

/-- The loop `for _, f := range files` of `main`. -/
def readFiles : List DirEntry → JoinState → Except Stop JoinState
  | [], st => .ok st
  | f :: rest, st =>
    match readFile st f with
    | .error stop => .error stop
    | .ok st' => readFiles rest st'

/-- The function `main` of `join_features.go`, from the entries of the input
directory to what it prints, when it gets to print the CSV. -/
def joinMain (files : List DirEntry) : Except Stop Str :=
  match readFiles files { featureSet := [], movies := [] } with
  | .error stop => .error stop
  | .ok st => .ok (outerJoinMovies st.movies st.featureSet 5 90)

/-! ## Concrete inputs used by the witnesses -/

/-- A text node. -/
def textNode (s : String) : Node := .mk NodeType.TextNode s.toList []

/-- An element node. -/
def elementNode (tag : String) (children : List Node) : Node :=
  .mk NodeType.ElementNode tag.toList children

/-- The content container `<pre>Hello World</pre>` with the two text children
`Hello` and ` World`. -/
def helloPre : Node := elementNode "pre" [textNode "Hello", textNode " World"]

/-- A page with an empty `pre` only: no content block. -/
def pageNoScript : Node :=
  .mk NodeType.DocumentNode [] [elementNode "html" [elementNode "body" [elementNode "pre" []]]]

/-- A page with one non-empty `pre`, next to an empty one. -/
def pageOneScript : Node :=
  .mk NodeType.DocumentNode []
    [elementNode "html" [elementNode "body" [elementNode "pre" [], helloPre]]]

/-- A page with two non-empty `pre`, one inside the other's sibling. -/
def pageTwoScripts : Node :=
  .mk NodeType.DocumentNode []
    [elementNode "html" [elementNode "body"
      [helloPre, elementNode "div" [elementNode "pre" [textNode "x"]]]]]

/-- A network that answers every request with status 200 and the page
`pageOneScript`. -/
def helloNet : Str → HttpResult := fun _ => .response 200 (.ok pageOneScript)

/-- The world in which every file operation succeeds and the network is
`helloNet`. -/
def helloEnv : Env :=
  { httpGet := helloNet, openMeta := none, createTxt := none, writeTxt := none,
    createMeta := none, writeMeta := none }

/-- The empty file system. -/
def noFiles : FileSystem := fun _ => none

/-- The input line of the end-to-end example. -/
def matrixLine : Str := "The Matrix, R, ignored".toList

/-- A file system that holds the metadata artifact of an earlier run for
`The Matrix`, and its text artifact. -/
def matrixDone : FileSystem :=
  (noFiles.write "the_matrix.txt".toList "Hello World".toList).write
    "the_matrix.meta".toList "The Matrix, R, ignored\n".toList

/-- A file system that holds a text artifact for `The Matrix` and no
metadata artifact for it: what a run leaves whose metadata write failed. -/
def matrixTxtOnly : FileSystem :=
  noFiles.write "the_matrix.txt".toList "old contents".toList

/-- The world of `helloEnv`, but the text artifact cannot be created. -/
def txtCreateFails : Env :=
  { helloEnv with createTxt := some "permission denied".toList }

/-- The world of `helloEnv`, but the write of the text artifact stops after
five bytes. -/
def txtWriteFails : Env :=
  { helloEnv with writeTxt := some (5, "no space left on device".toList) }

/-- A script of eight tokens, one of which normalizes to the empty string. -/
def catScript : Str := "The cat; the CAT -- saw: the cat!".toList

/-- The metadata file of `The Matrix`. -/
def matrixMeta : Str := "The Matrix, R, ignored\n".toList

/-- A movie with the features `cat` (three times) and `dog` (never). -/
def catMovie (title : String) : Movie :=
  { title := title.toList, contentRating := "R".toList,
    features := [("cat".toList, 3), ("dog".toList, 0)] }

/-- A movie with the feature `dog` (once). -/
def dogMovie (title : String) : Movie :=
  { title := title.toList, contentRating := "PG".toList, features := [("dog".toList, 1)] }

/-- Two movies, both with the feature `cat`. -/
def twoCatMovies : List Movie := [catMovie "alien", catMovie "brazil"]

/-- Three movies: `cat` occurs in two of them, `dog` in one, `emu` in none. -/
def threeMovies : List Movie := [catMovie "alien", dogMovie "babe", catMovie "cujo"]

/-- A page whose only non-empty `pre` stands between two empty ones. -/
def pageWithPlaceholders : Node :=
  .mk NodeType.DocumentNode []
    [elementNode "html" [elementNode "body"
      [elementNode "pre" [], elementNode "div" [helloPre], elementNode "pre" []]]]

/-- A page with text, a comment and nested elements. -/
def pageMixed : Node :=
  .mk NodeType.DocumentNode []
    [elementNode "html"
      [.mk NodeType.CommentNode " generated ".toList [],
       elementNode "body" [textNode "a", elementNode "b" [textNode "c"], textNode "d"]]]

/-- An input stream of two records. -/
def twoRecords : Str := "Alien, R, x\nBabe, G, y\n".toList

/-- An input stream whose only line has 4097 bytes: as many `a` as the
buffer of the reader holds, one more `a` and the end of the line. -/
def longLineInput : Str := List.replicate defaultBufSize 'a' ++ "a\n".toList

/-- An input stream whose first line has 4096 bytes, followed by a record. -/
def fullLineInput : Str := List.replicate defaultBufSize 'a' ++ "\nBabe, G, y\n".toList

/-- A file `features-{title}.csv` as `generateFeatures` writes it. -/
def featuresFile (title names values : String) : DirEntry :=
  { name := "features-".toList ++ title.toList ++ ".csv".toList
    isDir := false
    contents := some (names.toList ++ "\n".toList ++ values.toList ++ "\n".toList) }

/-- A directory with the features of one movie. -/
def oneMovieDir : List DirEntry :=
  [featuresFile "alien" "content_rating,cat,dog" "R,3,1"]

/-- A directory with the features of two movies. -/
def twoMovieDir : List DirEntry :=
  [featuresFile "alien" "content_rating,ape,cat,dog" "R,2,3,1",
   featuresFile "babe" "content_rating,ape,dog,emu" "PG,1,2,5"]

/-- The line of the end-to-end example with white space around its first
field. -/
def paddedMatrixLine : Str := " The Matrix \t, R, ignored".toList

/-- A file system that holds both artifacts of `The Matrix`, the text artifact
with the contents `old contents`. -/
def matrixOld : FileSystem :=
  (noFiles.write "the_matrix.txt".toList "old contents".toList).write
    "the_matrix.meta".toList "The Matrix, R, ignored\n".toList

/-- The world of `helloEnv`, but `os.Open` fails on a metadata file that
exists. -/
def openFails : Env :=
  { helloEnv with openMeta := some "too many open files".toList }

/-! ## Theorems -/

theorem findAllNodes_aux (selector : Node → Bool) :
    (∀ n : Node, findAllNodesFrom selector n = (Node.preorder n).filter selector) ∧
    (∀ (cs : List Node) (acc : List Node),
      findAllNodesLoop selector cs acc = acc ++ (Node.preorderAll cs).filter selector) := by
  have key : ∀ n : Node,
      (findAllNodesFrom selector n = (Node.preorder n).filter selector) := by
    intro n
    induction n using Node.rec
      (motive_2 := fun cs => ∀ acc : List Node,
        findAllNodesLoop selector cs acc = acc ++ (Node.preorderAll cs).filter selector) with
    | mk t d cs ih =>
      rw [findAllNodesFrom, ih, Node.preorder, List.filter_cons]
      split <;> simp
    | nil => simp [findAllNodesLoop, Node.preorderAll]
    | cons c cs ihc ihcs =>
      rw [findAllNodesLoop, ihcs, ihc, Node.preorderAll, List.filter_append,
        List.append_assoc]
  refine ⟨key, ?_⟩
  intro cs
  induction cs with
  | nil => intro acc; simp [findAllNodesLoop, Node.preorderAll]
  | cons c cs ih =>
    intro acc
    rw [findAllNodesLoop, ih, key, Node.preorderAll, List.filter_append, List.append_assoc]

/-- The flattening loop appends, to the buffer it is given, the payloads of the
non-element nodes of the subtrees in pre-order. -/
theorem parseContents_aux :
    (∀ (n : Node) (b : Str), parseContents n b =
      b ++ (((Node.preorder n).filter (fun m => decide (m.type ≠ NodeType.ElementNode))).map
        Node.data).flatten) ∧
    (∀ (cs : List Node) (b : Str), parseContentsLoop cs b =
      b ++ (((Node.preorderAll cs).filter (fun m => decide (m.type ≠ NodeType.ElementNode))).map
        Node.data).flatten) := by
  have key : ∀ (n : Node) (b : Str), parseContents n b =
      b ++ (((Node.preorder n).filter (fun m => decide (m.type ≠ NodeType.ElementNode))).map
        Node.data).flatten := by
    intro n
    induction n using Node.rec
      (motive_2 := fun cs => ∀ b : Str, parseContentsLoop cs b =
        b ++ (((Node.preorderAll cs).filter
          (fun m => decide (m.type ≠ NodeType.ElementNode))).map Node.data).flatten) with
    | mk t d cs ih =>
      intro b
      rw [parseContents, ih, Node.preorder, List.filter_cons]
      by_cases ht : t = NodeType.ElementNode
      · simp [ht, Node.type]
      · simp [ht, Node.type, Node.data]
    | nil => simp [parseContentsLoop, Node.preorderAll]
    | cons c cs ihc ihcs =>
      rename_i b
      rw [parseContentsLoop, ihcs, ihc, Node.preorderAll]
      simp
  refine ⟨key, ?_⟩
  intro cs
  induction cs with
  | nil => intro b; simp [parseContentsLoop, Node.preorderAll]
  | cons c cs ih =>
    intro b
    rw [parseContentsLoop, ih, key, Node.preorderAll]
    simp

/-- C1: for a tree `T` with a non-nil root and a predicate `P`,
`findAllNodes` returns the pre-order enumeration of the nodes of `T` with the
nodes that fail `P` struck out: a node is returned exactly when it is a node of
`T` that satisfies `P`, and the result keeps the pre-order and the
multiplicities of the enumeration. -/
theorem findAllNodes_eq_filter_preorder (T : Node) (P : Node → Bool) :
    findAllNodes (some T) P = (Node.preorder T).filter P ∧
    (∀ n : Node, n ∈ findAllNodes (some T) P ↔ n ∈ Node.preorder T ∧ P n = true) ∧
    (findAllNodes (some T) P).Sublist (Node.preorder T) := by
  have h : findAllNodes (some T) P = (Node.preorder T).filter P :=
    (findAllNodes_aux P).1 T
  refine ⟨h, ?_, ?_⟩
  · intro n
    rw [h, List.mem_filter]
  · rw [h]
    exact List.filter_sublist _

/-- C2: `parseContents` leaves the buffer equal to the initial buffer followed
by the `Data` of the non-element nodes of the tree, in pre-order; an element
node adds nothing of its own. -/
theorem parseContents_eq_text_preorder (T : Node) (b : Str) :
    parseContents T b =
      b ++ (((Node.preorder T).filter (fun m => decide (m.type ≠ NodeType.ElementNode))).map
        Node.data).flatten :=
  parseContents_aux.1 T b

/-- C3: with `k` the number of nodes of the parsed document that match the
content-block selector, the selection of `scrapeScript` is an error when
`k = 0`, an error when `k ≥ 2`, and the one matching node when `k = 1`. -/
theorem selectScript_by_match_count (root : Node) :
    (((Node.preorder root).filter scriptSelector).length = 0 →
      selectScript root =
        .error ("expected 1 node when scraping script, found ".toList ++ fmtNat 0)) ∧
    (2 ≤ ((Node.preorder root).filter scriptSelector).length →
      selectScript root =
        .error ("expected 1 node when scraping script, found ".toList ++
          fmtNat ((Node.preorder root).filter scriptSelector).length)) ∧
    (((Node.preorder root).filter scriptSelector).length = 1 →
      ∃ n : Node, (Node.preorder root).filter scriptSelector = [n] ∧
        selectScript root = .ok n) := by
  have h : findAllNodes (some root) scriptSelector = (Node.preorder root).filter scriptSelector :=
    (findAllNodes_aux scriptSelector).1 root
  refine ⟨?_, ?_, ?_⟩
  · intro h0
    simp only [selectScript, h, h0]
    rfl
  · intro h2
    have hne : ((Node.preorder root).filter scriptSelector).length ≠ 1 := by omega
    simp only [selectScript, h]
    rw [if_pos hne]
  · intro h1
    obtain ⟨n, hn⟩ := List.length_eq_one.mp h1
    refine ⟨n, hn, ?_⟩
    simp [selectScript, h, hn]

/-- Witness of C3: a page without content block, a page with one and a page
with two. -/
theorem selectScript_by_match_count_witness :
    selectScript pageNoScript =
      .error ("expected 1 node when scraping script, found ".toList ++ fmtNat 0) ∧
    selectScript pageTwoScripts =
      .error ("expected 1 node when scraping script, found ".toList ++
        fmtNat ((Node.preorder pageTwoScripts).filter scriptSelector).length) ∧
    (∃ n : Node, (Node.preorder pageOneScript).filter scriptSelector = [n] ∧
      selectScript pageOneScript = .ok n) :=
  ⟨(selectScript_by_match_count pageNoScript).1 (by decide),
   (selectScript_by_match_count pageTwoScripts).2.1 (by decide),
   (selectScript_by_match_count pageOneScript).2.2 (by decide)⟩

/-- The two artifact names of a line differ. -/
theorem filenameTxt_ne_filenameMeta (caseTable : Char → Char) (line : Str) :
    filenameTxt caseTable line ≠ filenameMeta caseTable line := by
  intro h
  have h2 := List.append_cancel_left h
  exact absurd h2 (by decide)

theorem opens_of_absent (fs : FileSystem) (openError : Option Str) (name : Str)
    (h : fs name = none) : opens fs openError name = false := by
  simp [opens, h]

/-- The function `strings.TrimSpace` removes white space at both ends and
nothing else: the string is white space, the result, white space, and the
result neither starts nor ends with white space. -/
theorem stringsTrimSpace_spec (s : Str) :
    ∃ lead trail : Str, s = lead ++ stringsTrimSpace s ++ trail ∧
      (∀ c ∈ lead, isSpace c = true) ∧ (∀ c ∈ trail, isSpace c = true) ∧
      (∀ c, (stringsTrimSpace s).head? = some c → isSpace c = false) ∧
      (∀ c, (stringsTrimSpace s).getLast? = some c → isSpace c = false) := by
  have htrim : stringsTrimSpace s = (s.dropWhile isSpace).rdropWhile isSpace := rfl
  have hsplit : s.dropWhile isSpace
      = (s.dropWhile isSpace).rdropWhile isSpace
        ++ (s.dropWhile isSpace).rtakeWhile isSpace := by
    unfold List.rdropWhile List.rtakeWhile
    rw [← List.reverse_append, List.takeWhile_append_dropWhile, List.reverse_reverse]
  refine ⟨s.takeWhile isSpace, (s.dropWhile isSpace).rtakeWhile isSpace, ?_, ?_, ?_, ?_, ?_⟩
  · rw [htrim, List.append_assoc, ← hsplit, List.takeWhile_append_dropWhile]
  · intro c hc; exact List.mem_takeWhile_imp hc
  · intro c hc; exact List.mem_rtakeWhile_imp hc
  · intro c hc
    rw [htrim] at hc
    have hne : (s.dropWhile isSpace).rdropWhile isSpace ≠ [] := by
      intro h; rw [h] at hc; exact absurd hc (by simp)
    have hpre : (s.dropWhile isSpace).rdropWhile isSpace <+: s.dropWhile isSpace :=
      List.rdropWhile_prefix isSpace _
    have hne2 : s.dropWhile isSpace ≠ [] := hpre.ne_nil hne
    have hhead := hpre.head hne
    rw [List.head?_eq_head hne] at hc
    have hc' : ((s.dropWhile isSpace).rdropWhile isSpace).head hne = c := Option.some.inj hc
    rw [← hc', hhead]
    have := List.head_dropWhile_not isSpace s hne2
    simpa using this
  · intro c hc
    rw [htrim] at hc
    have hne : (s.dropWhile isSpace).rdropWhile isSpace ≠ [] := by
      intro h; rw [h] at hc; exact absurd hc (by simp)
    rw [List.getLast?_eq_getLast _ hne] at hc
    have hc' := Option.some.inj hc
    rw [← hc']
    have := List.rdropWhile_last_not isSpace (s.dropWhile isSpace) hne
    simpa using this

/-- C4: for a line of three fields whose metadata file does not exist, when
the fetch returns the node `n` and the four file operations succeed, the file
`<normalized_title>.txt` holds the flattened content of `n`, the file
`<normalized_title>.meta` holds the line followed by one newline, and the one
report is the success of the title; `<normalized_title>` is the trimmed first
field in lower case with every space replaced by an underscore, where the
trimmed first field is the first field without the white space at its two
ends (it neither starts nor ends with white space, and only white space was
removed). -/
theorem processLine_success (caseTable : Char → Char) (env : Env) (fs : FileSystem)
    (line : Str) (n : Node)
    (hfields : (stringsSplit ',' line).length = 3)
    (hnew : fs (filenameMeta caseTable line) = none)
    (hfetch : scrapeScript env.httpGet (lineTitle line) = .ok n)
    (hcreateTxt : env.createTxt = none) (hwriteTxt : env.writeTxt = none)
    (hcreateMeta : env.createMeta = none) (hwriteMeta : env.writeMeta = none) :
    (processLine caseTable env fs line).fs
        (stringsReplace (stringsToLower caseTable
          (stringsTrimSpace ((stringsSplit ',' line).getD 0 []))) ' ' '_' ++ ".txt".toList)
      = some (parseContents n []) ∧
    (processLine caseTable env fs line).fs
        (stringsReplace (stringsToLower caseTable
          (stringsTrimSpace ((stringsSplit ',' line).getD 0 []))) ' ' '_' ++ ".meta".toList)
      = some (line ++ ['\n']) ∧
    (processLine caseTable env fs line).out
      = [Report.success (stringsTrimSpace ((stringsSplit ',' line).getD 0 []))] ∧
    (∃ lead trail : Str,
      (stringsSplit ',' line).getD 0 []
        = lead ++ stringsTrimSpace ((stringsSplit ',' line).getD 0 []) ++ trail ∧
      (∀ c ∈ lead, isSpace c = true) ∧ (∀ c ∈ trail, isSpace c = true) ∧
      (∀ c, (stringsTrimSpace ((stringsSplit ',' line).getD 0 [])).head? = some c →
        isSpace c = false) ∧
      (∀ c, (stringsTrimSpace ((stringsSplit ',' line).getD 0 [])).getLast? = some c →
        isSpace c = false)) := by
  have hne := filenameTxt_ne_filenameMeta caseTable line
  have hopen := opens_of_absent fs env.openMeta _ hnew
  refine ⟨?_, ?_, ?_, stringsTrimSpace_spec _⟩
  all_goals
    simp only [processLine, hfields, hopen, hfetch, hcreateTxt, hwriteTxt, hcreateMeta,
      hwriteMeta]
    simp only [filenameTxt, filenameMeta, lineFilename, lineTitle] at hne
    simp [FileSystem.write, filenameTxt, filenameMeta, lineFilename, lineTitle, hne]

/-- Witness of C4: the line `The Matrix, R, ignored` and a page whose content
block has the text children `Hello` and ` World` give `the_matrix.txt` with
`Hello World` and `the_matrix.meta` with the line and a newline; a first
field with white space around it, ` The Matrix `, gives the same names. -/
theorem processLine_success_witness :
    (processLine id helloEnv noFiles matrixLine).fs "the_matrix.txt".toList
      = some "Hello World".toList ∧
    (processLine id helloEnv noFiles matrixLine).fs "the_matrix.meta".toList
      = some "The Matrix, R, ignored\n".toList ∧
    (processLine id helloEnv noFiles matrixLine).out = [Report.success "The Matrix".toList] ∧
    (processLine id helloEnv noFiles paddedMatrixLine).fs "the_matrix.txt".toList
      = some "Hello World".toList ∧
    (processLine id helloEnv noFiles paddedMatrixLine).fs "the_matrix.meta".toList
      = some " The Matrix \t, R, ignored\n".toList ∧
    (processLine id helloEnv noFiles paddedMatrixLine).out
      = [Report.success "The Matrix".toList] :=
  have h1 := processLine_success id helloEnv noFiles matrixLine helloPre (by decide) rfl rfl
    rfl rfl rfl rfl
  have h2 := processLine_success id helloEnv noFiles paddedMatrixLine helloPre (by decide)
    rfl rfl rfl rfl rfl rfl
  ⟨h1.1, h1.2.1, h1.2.2.1, h2.1, h2.2.1, h2.2.2.1⟩

/-- C5 fails on the code: the metadata file and the text file of `The Matrix`
exist, but `os.Open` on the metadata file fails (too many open files). The
worker takes the error for the absence of the file: it fetches the script,
overwrites the text file, which held `old contents`, and reports success. -/
theorem processLine_refetches_when_open_fails :
    (matrixOld "the_matrix.meta".toList).isSome = true ∧
    matrixOld "the_matrix.txt".toList = some "old contents".toList ∧
    (processLine id openFails matrixOld matrixLine).out
      = [Report.success "The Matrix".toList] ∧
    Op.scrape "The Matrix".toList ∈ (processLine id openFails matrixOld matrixLine).ops ∧
    (processLine id openFails matrixOld matrixLine).fs "the_matrix.txt".toList
      = some "Hello World".toList := by
  refine ⟨by decide, by decide, by decide, by decide, by decide⟩

/-- When the metadata file of a line of three fields exists and `os.Open`
succeeds on it, the one report is the failure `script already found` of the
title, no fetch is made (the only effect attempted is the opening of the
metadata file) and every file is as before. -/
theorem processLine_already_found (caseTable : Char → Char) (env : Env) (fs : FileSystem)
    (line : Str)
    (hfields : (stringsSplit ',' line).length = 3)
    (hfound : (fs (filenameMeta caseTable line)).isSome = true)
    (hopen : env.openMeta = none) :
    (processLine caseTable env fs line).out
      = [Report.failure (lineTitle line) [] "script already found".toList] ∧
    (processLine caseTable env fs line).ops = [Op.openFile (filenameMeta caseTable line)] ∧
    (∀ title : Str, Op.scrape title ∉ (processLine caseTable env fs line).ops) ∧
    (processLine caseTable env fs line).fs = fs := by
  simp [processLine, opens, hfields, hfound, hopen]

/-- A second run on `The Matrix` while both artifacts of the first run exist
and the metadata file can be opened. -/
theorem processLine_already_found_example :
    (processLine id helloEnv matrixDone matrixLine).out
      = [Report.failure "The Matrix".toList [] "script already found".toList] ∧
    (processLine id helloEnv matrixDone matrixLine).ops
      = [Op.openFile "the_matrix.meta".toList] ∧
    (∀ title : Str, Op.scrape title ∉ (processLine id helloEnv matrixDone matrixLine).ops) ∧
    (processLine id helloEnv matrixDone matrixLine).fs = matrixDone :=
  processLine_already_found id helloEnv matrixDone matrixLine (by decide) (by decide) rfl

/-- C6: for a line that does not split into exactly three fields, the one
report is the failure of title `[unknown]` with the message
`invalid input line`, no effect is attempted (no fetch, no file operation) and
every file is as before. -/
theorem processLine_invalid_line (caseTable : Char → Char) (env : Env) (fs : FileSystem)
    (line : Str)
    (hfields : (stringsSplit ',' line).length ≠ 3) :
    (processLine caseTable env fs line).out
      = [Report.failure "[unknown]".toList [] "invalid input line".toList] ∧
    (processLine caseTable env fs line).ops = [] ∧
    (processLine caseTable env fs line).fs = fs := by
  simp [processLine, hfields]

/-- Witness of C6: the line `only,two`. -/
theorem processLine_invalid_line_witness :
    (processLine id helloEnv noFiles "only,two".toList).out
      = [Report.failure "[unknown]".toList [] "invalid input line".toList] ∧
    (processLine id helloEnv noFiles "only,two".toList).ops = [] ∧
    (processLine id helloEnv noFiles "only,two".toList).fs = noFiles :=
  processLine_invalid_line id helloEnv noFiles "only,two".toList (by decide)

/-- C7, as stated, fails: a text artifact that exists while its metadata
artifact does not is overwritten. Here `the_matrix.txt` holds `old contents`
before the line is processed and `Hello World` after. -/
theorem processLine_overwrites_orphan_txt :
    matrixTxtOnly "the_matrix.txt".toList = some "old contents".toList ∧
    (processLine id helloEnv matrixTxtOnly matrixLine).fs "the_matrix.txt".toList
      = some "Hello World".toList ∧
    ¬ (∀ (fs : FileSystem) (env : Env) (line p c : Str),
        (".txt".toList <:+ p ∨ ".meta".toList <:+ p) → fs p = some c →
        (processLine id env fs line).fs p = some c) := by
  refine ⟨by decide, by decide, ?_⟩
  intro h
  have h1 := h matrixTxtOnly helloEnv matrixLine "the_matrix.txt".toList
    "old contents".toList (Or.inl ⟨"the_matrix".toList, by decide⟩) (by decide)
  revert h1
  decide

/-- C7, amended: processing a line never changes a file other than the two
artifacts of the line; and when `os.Open` succeeds on the metadata file
whenever that file exists, it leaves every existing file as it was, unless the
file is the text artifact of the line and the metadata artifact of the line
does not exist. In particular, under that condition, an existing metadata
artifact is never changed, and no text artifact whose metadata artifact
exists. -/
theorem processLine_frame (caseTable : Char → Char) (env : Env) (fs : FileSystem)
    (line p c : Str)
    (hexists : fs p = some c) :
    ((p ≠ filenameTxt caseTable line ∧ p ≠ filenameMeta caseTable line) →
      (processLine caseTable env fs line).fs p = some c) ∧
    (((fs (filenameMeta caseTable line)).isSome = true → env.openMeta = none) →
      (p ≠ filenameTxt caseTable line ∨ (fs (filenameMeta caseTable line)).isSome = true) →
      (processLine caseTable env fs line).fs p = some c) := by
  have key : ∀ (hp : p ≠ filenameTxt caseTable line)
      (hq : opens fs env.openMeta (filenameMeta caseTable line) = false →
        p ≠ filenameMeta caseTable line),
      (processLine caseTable env fs line).fs p = some c := by
    intro hp hq
    unfold processLine
    simp only []
    split
    · exact hexists
    · split
      · exact hexists
      · rename_i hmeta
        have hq' := hq (by simpa using hmeta)
        split
        · exact hexists
        · split
          · exact hexists
          · split
            · simp [FileSystem.write, hp, hexists]
            · split
              · simp [FileSystem.write, hp, hexists]
              · split <;> simp [FileSystem.write, hp, hq', hexists]
  constructor
  · rintro ⟨hp, hq⟩
    exact key hp (fun _ => hq)
  · intro hopen hkeep
    by_cases hmeta : (fs (filenameMeta caseTable line)).isSome = true
    · have hop : opens fs env.openMeta (filenameMeta caseTable line) = true := by
        simp [opens, hmeta, hopen hmeta]
      unfold processLine
      simp only []
      split
      · exact hexists
      · exact hexists
    · have hp : p ≠ filenameTxt caseTable line := by
        rcases hkeep with h | h
        · exact h
        · exact absurd h hmeta
      refine key hp (fun _ hq => ?_)
      rw [hq] at hexists
      rw [hexists] at hmeta
      exact hmeta rfl

/-- Witness of C7, amended: the text artifact of `The Matrix` is kept by a
second run when the metadata artifact exists and can be opened. -/
theorem processLine_frame_witness :
    (processLine id helloEnv matrixDone matrixLine).fs "the_matrix.txt".toList
      = some "Hello World".toList :=
  (processLine_frame id helloEnv matrixDone matrixLine "the_matrix.txt".toList
    "Hello World".toList (by decide)).2 (fun _ => rfl) (Or.inr (by decide))

/-- C10: for a line of three fields whose fetch succeeded with the node `n`
(the metadata file did not exist, or no fetch would have been made): when the
creation of the text artifact fails the one report is a failure of category
`file txt open`, when its write fails the one report is a failure of category
`file txt write`, and in both cases neither the creation nor the write of the
metadata artifact is attempted and the metadata file does not exist
afterwards; whatever the file operations do, the metadata file exists
afterwards only if the text artifact holds the whole flattened content. -/
theorem processLine_txt_failure (caseTable : Char → Char) (env : Env) (fs : FileSystem)
    (line : Str) (n : Node)
    (hfields : (stringsSplit ',' line).length = 3)
    (hnew : fs (filenameMeta caseTable line) = none)
    (hfetch : scrapeScript env.httpGet (lineTitle line) = .ok n) :
    (∀ err : Str, env.createTxt = some err →
      (processLine caseTable env fs line).out
        = [Report.failure (lineTitle line) "file txt open".toList err] ∧
      (processLine caseTable env fs line).ops
        = [Op.openFile (filenameMeta caseTable line), Op.scrape (lineTitle line),
            Op.create (filenameTxt caseTable line)] ∧
      (processLine caseTable env fs line).fs = fs) ∧
    (∀ (k : Nat) (err : Str), env.createTxt = none → env.writeTxt = some (k, err) →
      (processLine caseTable env fs line).out
        = [Report.failure (lineTitle line) "file txt write".toList err] ∧
      (processLine caseTable env fs line).ops
        = [Op.openFile (filenameMeta caseTable line), Op.scrape (lineTitle line),
            Op.create (filenameTxt caseTable line),
            Op.write (filenameTxt caseTable line) (parseContents n [])]) ∧
    ((env.createTxt ≠ none ∨ env.writeTxt ≠ none) →
      Op.create (filenameMeta caseTable line) ∉ (processLine caseTable env fs line).ops ∧
      (∀ data : Str,
        Op.write (filenameMeta caseTable line) data ∉ (processLine caseTable env fs line).ops) ∧
      (processLine caseTable env fs line).fs (filenameMeta caseTable line) = none) ∧
    (((processLine caseTable env fs line).fs (filenameMeta caseTable line)).isSome = true →
      (processLine caseTable env fs line).fs (filenameTxt caseTable line)
        = some (parseContents n [])) := by
  have hne := filenameTxt_ne_filenameMeta caseTable line
  have hne2 : filenameMeta caseTable line ≠ filenameTxt caseTable line := fun h => hne h.symm
  have hopen := opens_of_absent fs env.openMeta _ hnew
  refine ⟨?_, ?_, ?_, ?_⟩
  · intro err hc
    simp [processLine, hfields, hopen, hfetch, hc]
  · intro k err hc hw
    simp [processLine, hfields, hopen, hfetch, hc, hw]
  · intro hfail
    simp only [processLine, hfields, hopen, hfetch]
    cases hc : env.createTxt with
    | some err => simp [hnew, hne2]
    | none =>
      cases hw : env.writeTxt with
      | some kerr => simp [hnew, hne2, FileSystem.write]
      | none => simp [hc, hw] at hfail
  · simp only [processLine, hfields, hopen, hfetch]
    cases hc : env.createTxt with
    | some err => simp [hnew]
    | none =>
      cases hw : env.writeTxt with
      | some kerr => simp [hnew, hne2, FileSystem.write]
      | none =>
        cases hcm : env.createMeta with
        | some err => simp [hnew, hne2, FileSystem.write]
        | none =>
          cases hwm : env.writeMeta with
          | some kerr => simp [hne, FileSystem.write]
          | none => simp [hne, FileSystem.write]

/-- Witness of C10: the line `The Matrix, R, ignored` in a world where the
text artifact cannot be created. -/
theorem processLine_txt_failure_witness :
    (processLine id txtCreateFails noFiles matrixLine).out
      = [Report.failure "The Matrix".toList "file txt open".toList
          "permission denied".toList] ∧
    (processLine id txtCreateFails noFiles matrixLine).ops
      = [Op.openFile "the_matrix.meta".toList, Op.scrape "The Matrix".toList,
          Op.create "the_matrix.txt".toList] ∧
    (processLine id txtCreateFails noFiles matrixLine).fs = noFiles :=
  (processLine_txt_failure id txtCreateFails noFiles matrixLine helloPre (by decide) rfl
    rfl).1 "permission denied".toList rfl

/-! ### The count map -/

theorem CountMap.get_set (m : CountMap) (k k' : Str) (v : Int) :
    (m.set k v).get k' = if k = k' then v else m.get k' := by
  induction m with
  | nil => simp [CountMap.set, CountMap.get]
  | cons e rest ih =>
    obtain ⟨k0, v0⟩ := e
    by_cases h : k0 = k
    · subst h
      by_cases h' : k0 = k' <;> simp [CountMap.set, CountMap.get, h']
    · by_cases h' : k0 = k'
      · subst h'
        simp [CountMap.set, CountMap.get, h, Ne.symm h]
      · simp [CountMap.set, CountMap.get, h, h', ih]

theorem CountMap.has_iff_mem_keys (m : CountMap) (k : Str) :
    m.has k = true ↔ k ∈ m.keys := by
  induction m with
  | nil => simp [CountMap.has, CountMap.keys]
  | cons e rest ih =>
    obtain ⟨k0, v0⟩ := e
    by_cases h : k0 = k
    · simp [CountMap.has, CountMap.keys, h]
    · have ih' : CountMap.has rest k = true ↔ k ∈ List.map Prod.fst rest := ih
      simp [CountMap.has, CountMap.keys, h, Ne.symm h, ih']

theorem CountMap.get_of_not_has (m : CountMap) (k : Str) (h : m.has k = false) :
    m.get k = 0 := by
  induction m with
  | nil => simp [CountMap.get]
  | cons e rest ih =>
    obtain ⟨k0, v0⟩ := e
    by_cases h0 : k0 = k
    · simp [CountMap.has, h0] at h
    · simp only [CountMap.has, h0, if_false] at h
      simp [CountMap.get, h0, ih h]

theorem CountMap.keys_set (m : CountMap) (k : Str) (v : Int) :
    (m.set k v).keys = if m.has k = true then m.keys else m.keys ++ [k] := by
  induction m with
  | nil => simp [CountMap.set, CountMap.has, CountMap.keys]
  | cons e rest ih =>
    obtain ⟨k0, v0⟩ := e
    by_cases h : k0 = k
    · simp [CountMap.set, CountMap.has, CountMap.keys, h]
    · have ih' : List.map Prod.fst (CountMap.set rest k v)
          = if CountMap.has rest k = true then List.map Prod.fst rest
            else List.map Prod.fst rest ++ [k] := ih
      simp only [CountMap.set, CountMap.has, CountMap.keys, h, if_false, List.map_cons, ih']
      split <;> simp

theorem get_increment (m : CountMap) (k k' : Str) :
    (increment m k).get k' = m.get k' + (if k = k' then 1 else 0) := by
  unfold increment
  cases hk : m.has k with
  | true =>
    simp only [if_true, CountMap.get_set]
    split
    · rename_i h; subst h; rfl
    · simp
  | false =>
    simp only [Bool.false_eq_true, if_false, CountMap.get_set]
    split
    · rename_i h; subst h; rw [CountMap.get_of_not_has m k hk]; simp
    · simp

theorem keys_increment (m : CountMap) (k : Str) :
    (increment m k).keys = if k ∈ m.keys then m.keys else m.keys ++ [k] := by
  unfold increment
  cases hk : m.has k with
  | true =>
    have hmem : k ∈ m.keys := (CountMap.has_iff_mem_keys m k).mp hk
    simp [CountMap.keys_set, hk, hmem]
  | false =>
    have hmem : k ∉ m.keys := by
      intro hm
      rw [(CountMap.has_iff_mem_keys m k).mpr hm] at hk
      exact Bool.noConfusion hk
    simp [CountMap.keys_set, hk, hmem]

theorem get_foldl_increment (ks : List Str) (m : CountMap) (k : Str) :
    (ks.foldl increment m).get k = m.get k + (ks.count k : Int) := by
  induction ks generalizing m with
  | nil => simp
  | cons a rest ih =>
    rw [List.foldl_cons, ih, get_increment, List.count_cons]
    by_cases h : a = k
    · simp [h]; ring
    · simp [h]

theorem mem_keys_foldl_increment (ks : List Str) (m : CountMap) (k : Str) :
    k ∈ (ks.foldl increment m).keys ↔ k ∈ m.keys ∨ k ∈ ks := by
  induction ks generalizing m with
  | nil => simp
  | cons a rest ih =>
    rw [List.foldl_cons, ih, keys_increment]
    by_cases h : a ∈ m.keys
    · simp only [h, if_true, List.mem_cons]
      constructor
      · rintro (h1 | h1)
        · exact Or.inl h1
        · exact Or.inr (Or.inr h1)
      · rintro (h1 | h1 | h1)
        · exact Or.inl h1
        · exact Or.inl (h1 ▸ h)
        · exact Or.inr h1
    · simp only [h, if_false, List.mem_append, List.mem_singleton, List.mem_cons]
      tauto

theorem nodup_keys_foldl_increment (ks : List Str) (m : CountMap) (h : m.keys.Nodup) :
    (ks.foldl increment m).keys.Nodup := by
  induction ks generalizing m with
  | nil => simpa using h
  | cons a rest ih =>
    rw [List.foldl_cons]
    apply ih
    rw [keys_increment]
    by_cases ha : a ∈ m.keys
    · simpa [ha] using h
    · simp only [ha, if_false]
      exact List.Nodup.append h (List.nodup_singleton a) (by simpa using ha)

/-! ### The loop of `generateFeatures` -/

/-- The loop increments the emitted keys of the words it reads, one after
another. -/
theorem foldl_countWord (caseTable : Char → Char) (toks : List Str) (st : CountState) :
    (toks.foldl (countWord caseTable) st).featureCounts =
      (emittedKeys st.currentWord
        ((toks.map (normalizeWord caseTable)).filter (fun w => decide (w ≠ [])))).foldl
        increment st.featureCounts := by
  induction toks generalizing st with
  | nil => simp [emittedKeys]
  | cons t rest ih =>
    rw [List.foldl_cons, ih]
    by_cases hw : normalizeWord caseTable t = []
    · simp [countWord, hw]
    · by_cases hp : st.currentWord = []
      · simp [countWord, hw, hp, emittedKeys]
      · simp [countWord, hw, hp, emittedKeys, bigramKey]

theorem featureCounts_eq (caseTable : Char → Char) (textBytes : Str) :
    featureCounts caseTable textBytes =
      (emittedKeys [] (scriptWords caseTable textBytes)).foldl increment [] := by
  unfold featureCounts scriptWords
  rw [foldl_countWord]

/-- The emitted keys are the words and the bigram keys of the neighbours. -/
theorem count_emittedKeys (k : Str) (ws : List Str) (prev : Str)
    (hne : ∀ w ∈ ws, w ≠ []) :
    (emittedKeys prev ws).count k =
      ws.count k +
        ((if prev = [] then neighbours ws else (prev :: ws).zip ws).map
          (fun p => bigramKey p.1 p.2)).count k := by
  induction ws generalizing prev with
  | nil => simp [emittedKeys, neighbours]
  | cons w rest ih =>
    have hw : w ≠ [] := hne w (List.mem_cons_self _ _)
    have ih' := ih w (fun x hx => hne x (List.mem_cons_of_mem _ hx))
    simp only [hw, if_false] at ih'
    by_cases hp : prev = []
    · simp only [emittedKeys, hp, if_true, neighbours, List.tail_cons, List.count_cons, ih']
      omega
    · simp only [emittedKeys, hp, if_false, List.zip_cons_cons, List.map_cons,
        List.count_cons, ih']
      omega

theorem underscore_not_mem_normalizeWord (caseTable : Char → Char) (word : Str) :
    '_' ∉ normalizeWord caseTable word := by
  intro h
  have h2 := (List.mem_filter.mp h).2
  exact absurd h2 (by decide)

theorem scriptWords_spec (caseTable : Char → Char) (textBytes : Str) :
    ∀ w ∈ scriptWords caseTable textBytes, w ≠ [] ∧ '_' ∉ w := by
  intro w hw
  obtain ⟨hmem, hne⟩ := List.mem_filter.mp hw
  obtain ⟨t, _, rfl⟩ := List.mem_map.mp hmem
  exact ⟨by simpa using hne, underscore_not_mem_normalizeWord caseTable t⟩

theorem underscore_mem_bigramKey (a b : Str) : '_' ∈ bigramKey a b := by
  simp [bigramKey]

theorem bigramKey_inj (a b a' b' : Str) (ha : '_' ∉ a) (ha' : '_' ∉ a')
    (h : bigramKey a b = bigramKey a' b') : a = a' ∧ b = b' := by
  induction a generalizing a' with
  | nil =>
    cases a' with
    | nil => simpa [bigramKey] using h
    | cons c cs =>
      simp only [bigramKey, String.toList, List.nil_append, List.cons_append,
        List.cons.injEq] at h
      exact absurd (h.1 ▸ List.mem_cons_self _ _) ha'
  | cons c cs ih =>
    cases a' with
    | nil =>
      simp only [bigramKey, String.toList, List.nil_append, List.cons_append,
        List.cons.injEq] at h
      exact absurd (h.1 ▸ List.mem_cons_self _ _) ha
    | cons c' cs' =>
      simp only [bigramKey, List.cons_append, List.cons.injEq] at h
      have := ih cs' (fun hm => ha (List.mem_cons_of_mem _ hm))
        (fun hm => ha' (List.mem_cons_of_mem _ hm)) (by simpa [bigramKey] using h.2)
      exact ⟨by rw [h.1, this.1], this.2⟩

theorem count_bigramKey_map (a b : Str) (ha : '_' ∉ a) (l : List (Str × Str))
    (hl : ∀ p ∈ l, '_' ∉ p.1) :
    (l.map (fun p => bigramKey p.1 p.2)).count (bigramKey a b) = l.count (a, b) := by
  induction l with
  | nil => simp
  | cons p rest ih =>
    have ih' := ih (fun q hq => hl q (List.mem_cons_of_mem _ hq))
    have hp : '_' ∉ p.1 := hl p (List.mem_cons_self _ _)
    rw [List.map_cons, List.count_cons, List.count_cons, ih']
    by_cases h : p = (a, b)
    · subst h; simp
    · have h2 : bigramKey p.1 p.2 ≠ bigramKey a b := by
        intro he
        obtain ⟨h1, h2⟩ := bigramKey_inj p.1 p.2 a b hp ha he
        exact h (Prod.ext h1 h2)
      simp [h, h2]

theorem get_featureCounts (caseTable : Char → Char) (textBytes k : Str) :
    (featureCounts caseTable textBytes).get k =
      (((scriptWords caseTable textBytes).count k +
        ((neighbours (scriptWords caseTable textBytes)).map
          (fun p => bigramKey p.1 p.2)).count k : Nat) : Int) := by
  rw [featureCounts_eq, get_foldl_increment,
    count_emittedKeys k _ [] (fun w hw => (scriptWords_spec caseTable textBytes w hw).1)]
  simp [CountMap.get]

theorem foldl_write_counts (counts : CountMap) (features : List Str) (file : Str) :
    features.foldl (fun file f => file ++ ",".toList ++ fmtInt (counts.get f)) file =
      file ++ (features.map (fun f => ",".toList ++ fmtInt (counts.get f))).flatten := by
  induction features generalizing file with
  | nil => simp
  | cons f rest ih => rw [List.foldl_cons, ih]; simp

/-- C8: with `w1..wn` the words of the script (`scriptWords`),
`generateFeatures` counts every word as often as it occurs among them and
every bigram key `a_b` as often as `a` is followed by `b`; the feature names
are the words and the bigram keys of neighbours and nothing else; they are
written in strictly ascending order, and the second line of the file holds,
after the content rating, the count of each name in the same order. -/
theorem generateFeatures_counts (caseTable : Char → Char) (metaBytes textBytes : Str) :
    (∀ w ∈ scriptWords caseTable textBytes,
      (featureCounts caseTable textBytes).get w
        = ((scriptWords caseTable textBytes).count w : Int)) ∧
    (∀ a b : Str, (a, b) ∈ neighbours (scriptWords caseTable textBytes) →
      (featureCounts caseTable textBytes).get (bigramKey a b)
        = ((neighbours (scriptWords caseTable textBytes)).count (a, b) : Int)) ∧
    (∀ k : Str, k ∈ featureNames caseTable textBytes ↔
      (k ∈ scriptWords caseTable textBytes ∨
        ∃ a b : Str, (a, b) ∈ neighbours (scriptWords caseTable textBytes) ∧
          k = bigramKey a b)) ∧
    (featureNames caseTable textBytes).Sorted (fun a b => a < b) ∧
    (∀ rating : Str, (stringsSplit ',' metaBytes).get? 1 = some rating →
      generateFeatures caseTable metaBytes textBytes = some (
        "content_rating,".toList ++ stringsJoin ",".toList (featureNames caseTable textBytes)
          ++ "\n".toList ++ rating
          ++ ((featureNames caseTable textBytes).map
              (fun f => ",".toList ++ fmtInt ((featureCounts caseTable textBytes).get f))).flatten
          ++ "\n".toList)) := by
  have hws := scriptWords_spec caseTable textBytes
  have hpairs : ∀ p ∈ neighbours (scriptWords caseTable textBytes), '_' ∉ p.1 := by
    intro p hp
    obtain ⟨a, b⟩ := p
    exact (hws a (List.of_mem_zip hp).1).2
  refine ⟨?_, ?_, ?_, ?_, ?_⟩
  · intro w hw
    rw [get_featureCounts]
    have h0 : ((neighbours (scriptWords caseTable textBytes)).map
        (fun p => bigramKey p.1 p.2)).count w = 0 := by
      apply List.count_eq_zero_of_not_mem
      intro hm
      obtain ⟨p, _, hp⟩ := List.mem_map.mp hm
      exact (hws w hw).2 (hp ▸ underscore_mem_bigramKey p.1 p.2)
    rw [h0, Nat.add_zero]
  · intro a b hab
    rw [get_featureCounts]
    have h0 : (scriptWords caseTable textBytes).count (bigramKey a b) = 0 := by
      apply List.count_eq_zero_of_not_mem
      intro hm
      exact (hws _ hm).2 (underscore_mem_bigramKey a b)
    rw [h0, Nat.zero_add, count_bigramKey_map a b (hpairs (a, b) hab) _ hpairs]
  · intro k
    have hperm : k ∈ featureNames caseTable textBytes ↔
        k ∈ (featureCounts caseTable textBytes).keys :=
      (List.perm_insertionSort _ _).mem_iff
    have hpos : k ∈ (featureCounts caseTable textBytes).keys ↔
        0 < (emittedKeys [] (scriptWords caseTable textBytes)).count k := by
      rw [featureCounts_eq, mem_keys_foldl_increment, List.count_pos_iff]
      simp [CountMap.keys]
    rw [hperm, hpos, count_emittedKeys k _ [] (fun w hw => (hws w hw).1)]
    simp only [if_true, Nat.add_pos_iff_pos_or_pos, List.count_pos_iff, List.mem_map]
    constructor
    · rintro (h | ⟨p, hp, rfl⟩)
      · exact Or.inl h
      · exact Or.inr ⟨p.1, p.2, hp, rfl⟩
    · rintro (h | ⟨a, b, hab, rfl⟩)
      · exact Or.inl h
      · exact Or.inr ⟨(a, b), hab, rfl⟩
  · have hnodup : (featureCounts caseTable textBytes).keys.Nodup := by
      rw [featureCounts_eq]
      exact nodup_keys_foldl_increment _ [] (by simp [CountMap.keys])
    exact (List.sorted_insertionSort (fun a b : Str => a ≤ b) _).lt_of_le
      ((List.perm_insertionSort _ _).nodup_iff.mpr hnodup)
  · intro rating hr
    simp only [generateFeatures, hr, foldl_write_counts]

/-- Witness of C8: the file written for the script
`The cat; the CAT -- saw: the cat!`. -/
theorem generateFeatures_counts_witness :
    generateFeatures id matrixMeta catScript = some
      "content_rating,cat,cat_saw,cat_the,saw,saw_the,the,the_cat\n R,3,1,1,1,1,3,3\n".toList :=
  (generateFeatures_counts id matrixMeta catScript).2.2.2.2 " R".toList (by decide)

/-! ### The join -/

theorem wrapInt_of_inRange (x : Int) (hlo : -2 ^ 63 ≤ x) (hhi : x < 2 ^ 63) :
    wrapInt x = x := by
  unfold wrapInt
  omega

theorem foldl_occurrences (movies : List Movie) (f : Str) (c : Int) :
    movies.foldl (fun c m => if m.features.get f > 0 then c + 1 else c) c
      = c + (occurrences movies f : Int) := by
  induction movies generalizing c with
  | nil => simp [occurrences]
  | cons m rest ih =>
    rw [List.foldl_cons, ih]
    by_cases h : m.features.get f > 0
    · have h2 : occurrences (m :: rest) f = occurrences rest f + 1 := by
        simp [occurrences, List.filter_cons, h]
      rw [h2]; simp [h]; ring
    · have h2 : occurrences (m :: rest) f = occurrences rest f := by
        simp only [occurrences, List.filter_cons]
        simp [h]
      rw [h2]; simp [h]

theorem featureOccurrences_eq (movies : List Movie) (f : Str) :
    featureOccurrences movies f = (occurrences movies f : Int) := by
  unfold featureOccurrences
  rw [foldl_occurrences]
  simp

theorem occurrences_le_length (movies : List Movie) (f : Str) :
    occurrences movies f ≤ movies.length :=
  List.length_filter_le _ _

theorem mem_featuresSorted (movies : List Movie) (featureSet : List Str)
    (pctMin pctMax : Int) (f : Str) :
    f ∈ featuresSorted movies featureSet pctMin pctMax ↔
      f ∈ featureSet ∧ deleted movies pctMin pctMax (featureOccurrences movies f) = false := by
  unfold featuresSorted sortStrings
  rw [(List.perm_insertionSort _ _).mem_iff, List.mem_filter]
  simp

theorem writeRecord_eq (columns : List Str) (buf : Str) (m : Movie) :
    writeRecord columns buf m =
      buf ++ (m.title ++ ",".toList ++ m.contentRating
        ++ (columns.map (fun f => ",".toList ++ fmtInt (m.features.get f))).flatten
        ++ "\n".toList) := by
  unfold writeRecord
  rw [foldl_write_counts]
  simp [List.append_assoc]

theorem foldl_writeRecord (columns : List Str) (movies : List Movie) (buf : Str) :
    movies.foldl (writeRecord columns) buf =
      buf ++ (movies.map (fun m => m.title ++ ",".toList ++ m.contentRating
        ++ (columns.map (fun f => ",".toList ++ fmtInt (m.features.get f))).flatten
        ++ "\n".toList)).flatten := by
  induction movies generalizing buf with
  | nil => simp
  | cons m rest ih =>
    rw [List.foldl_cons, ih, writeRecord_eq]
    simp [List.append_assoc]

/-- C9, as stated, fails: with two movies that both have the feature `cat`
and the bound `pctMin = 2 ^ 62`, the product `len(movies)*pctMin` wraps around
to a negative number, so the feature is kept as a column although
`n*pctMin ≤ 100*occ` is false. -/
theorem featuresSorted_keeps_on_overflow :
    "cat".toList ∈ featuresSorted twoCatMovies ["cat".toList] (2 ^ 62) 100 ∧
    outerJoinMovies twoCatMovies ["cat".toList] (2 ^ 62) 100
      = "title,content_rating,cat\nalien,R,3\nbrazil,R,3\n".toList ∧
    ¬ ((twoCatMovies.length : Int) * 2 ^ 62
        ≤ 100 * (occurrences twoCatMovies "cat".toList : Int)) := by
  refine ⟨by decide, by decide, by decide⟩

/-- C9, amended: when `100*n`, `n*pctMin` and `n*pctMax` are within the range
of a 64-bit `int` (`n` the number of movies), a feature of the set is a column
of the output exactly when `n*pctMin ≤ 100*occ(f) ≤ n*pctMax`, the columns are
in ascending order (strictly, the keys of the set being distinct), and the
first line of the output lists them after `title,content_rating`. -/
theorem featuresSorted_within_bounds (movies : List Movie) (featureSet : List Str)
    (pctMin pctMax : Int)
    (hn : 100 * (movies.length : Int) < 2 ^ 63)
    (hmin : -2 ^ 63 ≤ (movies.length : Int) * pctMin ∧ (movies.length : Int) * pctMin < 2 ^ 63)
    (hmax : -2 ^ 63 ≤ (movies.length : Int) * pctMax ∧ (movies.length : Int) * pctMax < 2 ^ 63) :
    (∀ f : Str, f ∈ featuresSorted movies featureSet pctMin pctMax ↔
      (f ∈ featureSet ∧
        (movies.length : Int) * pctMin ≤ 100 * (occurrences movies f : Int) ∧
        100 * (occurrences movies f : Int) ≤ (movies.length : Int) * pctMax)) ∧
    (featuresSorted movies featureSet pctMin pctMax).Sorted (fun a b => a ≤ b) ∧
    (featureSet.Nodup →
      (featuresSorted movies featureSet pctMin pctMax).Sorted (fun a b => a < b)) ∧
    (∃ records : Str, outerJoinMovies movies featureSet pctMin pctMax =
      "title,content_rating,".toList
        ++ stringsJoin ",".toList (featuresSorted movies featureSet pctMin pctMax)
        ++ "\n".toList ++ records) := by
  refine ⟨?_, ?_, ?_, ?_⟩
  · intro f
    rw [mem_featuresSorted, featureOccurrences_eq]
    have hocc := occurrences_le_length movies f
    have hc : wrapInt ((occurrences movies f : Int) * 100) = (occurrences movies f : Int) * 100 :=
      wrapInt_of_inRange _ (by omega) (by omega)
    simp only [deleted, hc, wrapInt_of_inRange _ hmin.1 hmin.2,
      wrapInt_of_inRange _ hmax.1 hmax.2, Bool.or_eq_false_iff, decide_eq_false_iff_not,
      not_lt, gt_iff_lt]
    constructor
    · rintro ⟨h1, h2, h3⟩
      exact ⟨h1, by omega, by omega⟩
    · rintro ⟨h1, h2, h3⟩
      exact ⟨h1, by omega, by omega⟩
  · exact List.sorted_insertionSort (fun a b : Str => a ≤ b) _
  · intro hnodup
    exact (List.sorted_insertionSort (fun a b : Str => a ≤ b) _).lt_of_le
      ((List.perm_insertionSort _ _).nodup_iff.mpr (hnodup.filter _))
  · exact ⟨_, foldl_writeRecord _ movies _⟩

/-- Witness of C9, amended: three movies and the bounds 5 and 90 of `main`;
the feature `emu`, which occurs in no movie, is no column. -/
theorem featuresSorted_within_bounds_witness :
    ("emu".toList ∈ featuresSorted threeMovies ["emu".toList, "dog".toList, "cat".toList] 5 90 ↔
      ("emu".toList ∈ ["emu".toList, "dog".toList, "cat".toList] ∧
        (threeMovies.length : Int) * 5 ≤ 100 * (occurrences threeMovies "emu".toList : Int) ∧
        100 * (occurrences threeMovies "emu".toList : Int) ≤ (threeMovies.length : Int) * 90)) ∧
    (featuresSorted threeMovies ["emu".toList, "dog".toList, "cat".toList] 5 90).Sorted
      (fun a b => a ≤ b) :=
  ⟨(featuresSorted_within_bounds threeMovies ["emu".toList, "dog".toList, "cat".toList] 5 90
    (by decide) (by decide) (by decide)).1 "emu".toList,
   (featuresSorted_within_bounds threeMovies ["emu".toList, "dog".toList, "cat".toList] 5 90
    (by decide) (by decide) (by decide)).2.1⟩

/-! ### The reporter -/

/-- C11: `printScrapeSuccess` writes `success:`, a tab, the title and a
newline; `printScrapeFailure` writes `failure:`, a tab, the title, a tab, then
the category, a colon and the message when the category is not empty, and the
message alone when it is empty, and a newline. -/
theorem printScrape_lines (title typ msg : Str) :
    printScrapeSuccess title = "success:\t".toList ++ (title ++ "\n".toList) ∧
    (typ ≠ [] → printScrapeFailure title typ msg =
      "failure:\t".toList ++ (title ++ ("\t".toList ++ (typ ++ (":".toList ++
        (msg ++ "\n".toList)))))) ∧
    printScrapeFailure title [] msg =
      "failure:\t".toList ++ (title ++ ("\t".toList ++ (msg ++ "\n".toList))) := by
  refine ⟨rfl, ?_, rfl⟩
  intro h
  unfold printScrapeFailure
  rw [if_pos h]
  rfl

/-- Witness of C11: the lines for `The Matrix`. -/
theorem printScrape_lines_witness :
    printScrapeSuccess "The Matrix".toList = "success:\tThe Matrix\n".toList ∧
    printScrapeFailure "The Matrix".toList "scrape error".toList
        "unexpected status code 404".toList
      = "failure:\tThe Matrix\tscrape error:unexpected status code 404\n".toList ∧
    printScrapeFailure "The Matrix".toList [] "script already found".toList
      = "failure:\tThe Matrix\tscript already found\n".toList :=
  ⟨(printScrape_lines "The Matrix".toList [] []).1,
   (printScrape_lines "The Matrix".toList "scrape error".toList
      "unexpected status code 404".toList).2.1 (by decide),
   (printScrape_lines "The Matrix".toList [] "script already found".toList).2.2⟩

/-! ### The worker's loop -/

theorem processLine_out_length (caseTable : Char → Char) (env : Env) (fs : FileSystem)
    (line : Str) : (processLine caseTable env fs line).out.length = 1 := by
  unfold processLine
  simp only []
  repeat' split
  all_goals rfl

theorem worker_append (caseTable : Char → Char) (before after : List (Str × Env))
    (st : Outcome) :
    worker caseTable (before ++ after) st = worker caseTable after (worker caseTable before st) := by
  induction before generalizing st with
  | nil => rfl
  | cons item rest ih =>
    obtain ⟨line, env⟩ := item
    simp only [List.cons_append, worker]
    exact ih _

theorem worker_out (caseTable : Char → Char) (items : List (Str × Env)) (st : Outcome) :
    ∃ more : List Report,
      (worker caseTable items st).out = st.out ++ more ∧ more.length = items.length := by
  induction items generalizing st with
  | nil => exact ⟨[], by simp [worker], rfl⟩
  | cons item rest ih =>
    obtain ⟨line, env⟩ := item
    obtain ⟨more, h1, h2⟩ := ih
      { fs := (processLine caseTable env st.fs line).fs
        out := st.out ++ (processLine caseTable env st.fs line).out
        ops := st.ops ++ (processLine caseTable env st.fs line).ops }
    refine ⟨(processLine caseTable env st.fs line).out ++ more, ?_, ?_⟩
    · simp only [worker]
      rw [h1, List.append_assoc]
    · rw [List.length_append, processLine_out_length, h2, List.length_cons]
      omega

/-- C13: a worker makes exactly one report for each line it consumes, so `k`
lines give `k` reports; and whatever happened to the lines before it, each
line is processed: its report is the one that `processLine` makes for it in
the file system that the lines before it have left. -/
theorem worker_one_report_per_line (caseTable : Char → Char) (fs : FileSystem)
    (items : List (Str × Env)) :
    (∀ (env : Env) (fs' : FileSystem) (line : Str),
      (processLine caseTable env fs' line).out.length = 1) ∧
    (worker caseTable items (startOf fs)).out.length = items.length ∧
    (∀ (before after : List (Str × Env)) (line : Str) (env : Env),
      (worker caseTable (before ++ (line, env) :: after) (startOf fs)).out.get? before.length
        = (processLine caseTable env (worker caseTable before (startOf fs)).fs line).out.head?) := by
  refine ⟨processLine_out_length caseTable, ?_, ?_⟩
  · obtain ⟨more, h1, h2⟩ := worker_out caseTable items (startOf fs)
    rw [h1, List.length_append, h2]
    simp [startOf]
  · intro before after line env
    obtain ⟨pre, hp1, hp2⟩ := worker_out caseTable before (startOf fs)
    have hlen : (worker caseTable before (startOf fs)).out.length = before.length := by
      rw [hp1, List.length_append, hp2]
      simp [startOf]
    rw [worker_append]
    simp only [worker]
    obtain ⟨more, hm1, _⟩ := worker_out caseTable after
      { fs := (processLine caseTable env (worker caseTable before (startOf fs)).fs line).fs
        out := (worker caseTable before (startOf fs)).out
          ++ (processLine caseTable env (worker caseTable before (startOf fs)).fs line).out
        ops := (worker caseTable before (startOf fs)).ops
          ++ (processLine caseTable env (worker caseTable before (startOf fs)).fs line).ops }
    rw [hm1]
    simp only []
    have h1 := processLine_out_length caseTable env
      (worker caseTable before (startOf fs)).fs line
    obtain ⟨x, hx⟩ := List.length_eq_one.mp h1
    rw [hx, List.append_assoc, ← hlen, List.get?_eq_getElem?,
      List.getElem?_append_right (le_refl _)]
    simp

/-! ### The content-block selector and the two traversals -/

/-- C16: the selector of `scrapeScript` holds for a node exactly when the node
is an element, its tag is `pre` and it has at least one child; hence when
exactly one node of the parsed document is a `pre` element with a child, that
node is returned, however many `pre` elements without children there are. -/
theorem scriptSelector_iff :
    (∀ n : Node, scriptSelector n = true ↔
      (n.type = NodeType.ElementNode ∧ n.data = "pre".toList ∧ 0 < n.children.length)) ∧
    (∀ (root p : Node),
      (Node.preorder root).filter (fun n => decide (n.type = NodeType.ElementNode ∧
        n.data = "pre".toList ∧ 0 < n.children.length)) = [p] →
      selectScript root = .ok p) := by
  have hsel : ∀ n : Node, scriptSelector n = true ↔
      (n.type = NodeType.ElementNode ∧ n.data = "pre".toList ∧ 0 < n.children.length) := by
    intro n
    unfold scriptSelector
    by_cases h1 : n.type = NodeType.ElementNode ∧ n.data = "pre".toList
    · cases hc : n.children with
      | nil => simp [h1, hc]
      | cons c cs => simp [h1, hc]
    · rw [if_neg h1]
      constructor
      · intro h; exact absurd h (by decide)
      · rintro ⟨h2, h3, _⟩; exact absurd ⟨h2, h3⟩ h1
  refine ⟨hsel, ?_⟩
  intro root p hp
  have hfun : (fun n => decide (n.type = NodeType.ElementNode ∧
      n.data = "pre".toList ∧ 0 < n.children.length)) = scriptSelector := by
    funext n
    rw [Bool.eq_iff_iff, decide_eq_true_iff]
    exact (hsel n).symm
  rw [hfun] at hp
  have h : findAllNodes (some root) scriptSelector = [p] := by
    rw [← hp]; exact (findAllNodes_aux scriptSelector).1 root
  simp [selectScript, h]

/-- Witness of C16: a page with two empty `pre` and one that holds the
script. -/
theorem scriptSelector_iff_witness :
    scriptSelector (elementNode "pre" []) = false ∧
    selectScript pageWithPlaceholders = .ok helloPre :=
  ⟨by decide, scriptSelector_iff.2 pageWithPlaceholders helloPre rfl⟩

/-- C19: what `parseContents` writes for a tree into an empty buffer is the
concatenation of the `Data` of the nodes that `findAllNodes` returns for a
predicate that holds of exactly the non-element nodes. -/
theorem parseContents_eq_findAllNodes (T : Node) (P : Node → Bool)
    (hP : ∀ n : Node, P n = true ↔ n.type ≠ NodeType.ElementNode) :
    parseContents T [] = ((findAllNodes (some T) P).map Node.data).flatten := by
  have hfun : P = fun m => decide (m.type ≠ NodeType.ElementNode) := by
    funext n
    rw [Bool.eq_iff_iff, decide_eq_true_iff]
    exact hP n
  have h1 : findAllNodes (some T) P = (Node.preorder T).filter P := (findAllNodes_aux P).1 T
  rw [h1, parseContents_aux.1 T [], hfun]
  simp

/-- Witness of C19: a page with text, a comment and nested elements. -/
theorem parseContents_eq_findAllNodes_witness :
    parseContents pageMixed [] = " generated acd".toList ∧
    parseContents pageMixed [] =
      ((findAllNodes (some pageMixed)
        (fun n => decide (n.type ≠ NodeType.ElementNode))).map Node.data).flatten :=
  ⟨by decide,
   parseContents_eq_findAllNodes pageMixed (fun n => decide (n.type ≠ NodeType.ElementNode))
    (fun n => decide_eq_true_iff)⟩

/-! ### `normalizeWord` -/

theorem toNat_ofNat_of_lt (n : Nat) (h : n < 55296) : (Char.ofNat n).toNat = n := by
  have hv : n.isValidChar := Or.inl h
  unfold Char.ofNat
  rw [dif_pos hv]
  simp [Char.ofNatAux, Char.toNat, UInt32.toNat, UInt32.ofNat']

/-- A lowered character is no ASCII capital, when the case tables yield
none. -/
theorem unicodeToLower_not_upper (caseTable : Char → Char)
    (hTable : ∀ c : Char, 127 < c.toNat →
      ¬ ('A'.toNat ≤ (caseTable c).toNat ∧ (caseTable c).toNat ≤ 'Z'.toNat))
    (c : Char) :
    ¬ ('A'.toNat ≤ (unicodeToLower caseTable c).toNat ∧
      (unicodeToLower caseTable c).toNat ≤ 'Z'.toNat) := by
  have hA : 'A'.toNat = 65 := rfl
  have hZ : 'Z'.toNat = 90 := rfl
  unfold unicodeToLower
  by_cases h1 : c.toNat ≤ 127
  · rw [if_pos h1]
    by_cases h2 : 'A'.toNat ≤ c.toNat ∧ c.toNat ≤ 'Z'.toNat
    · rw [if_pos h2, toNat_ofNat_of_lt (c.toNat + 32) (by omega)]
      omega
    · rw [if_neg h2]
      exact h2
  · rw [if_neg h1]
    exact hTable c (by omega)

theorem isAlnum_eq_of_not_upper (c : Char)
    (h : ¬ ('A'.toNat ≤ c.toNat ∧ c.toNat ≤ 'Z'.toNat)) :
    isAlnum c = isLowerOrDigit c := by
  unfold isAlnum isLowerOrDigit
  have h2 : (decide ('A'.toNat ≤ c.toNat) && decide (c.toNat ≤ 'Z'.toNat)) = false := by
    rw [Bool.and_eq_false_iff]
    by_cases h3 : 'A'.toNat ≤ c.toNat
    · exact Or.inr (by simpa using fun h4 => h ⟨h3, h4⟩)
    · exact Or.inl (by simpa using h3)
  rw [h2]
  simp

theorem unicodeToLower_of_isLowerOrDigit (caseTable : Char → Char) (c : Char)
    (h : isLowerOrDigit c = true) :
    unicodeToLower caseTable c = c ∧ isAlnum c = true := by
  have ha : 'a'.toNat = 97 := rfl
  have hz : 'z'.toNat = 122 := rfl
  have h0 : '0'.toNat = 48 := rfl
  have h9 : '9'.toNat = 57 := rfl
  have hA : 'A'.toNat = 65 := rfl
  have hZ : 'Z'.toNat = 90 := rfl
  have h' : (97 ≤ c.toNat ∧ c.toNat ≤ 122) ∨ (48 ≤ c.toNat ∧ c.toNat ≤ 57) := by
    simpa [isLowerOrDigit, ha, hz, h0, h9] using h
  constructor
  · unfold unicodeToLower
    rw [if_pos (by omega), if_neg (by omega)]
  · unfold isAlnum
    rw [ha, hz, h0, h9, hA, hZ]
    rcases h' with h1 | h1
    · simp [h1.1, h1.2]
    · simp [h1.1, h1.2]

/-- C17: `normalizeWord` gives the word in lower case with every character
outside `a-z` and `0-9` removed; the result holds small letters and digits
only (no capital, no punctuation, no underscore) and `normalizeWord` leaves it
unchanged. The Unicode case tables, which are not part of the repository,
are taken to map no character to an ASCII capital. -/
theorem normalizeWord_spec (caseTable : Char → Char)
    (hTable : ∀ c : Char, 127 < c.toNat →
      ¬ ('A'.toNat ≤ (caseTable c).toNat ∧ (caseTable c).toNat ≤ 'Z'.toNat))
    (word : Str) :
    normalizeWord caseTable word = (stringsToLower caseTable word).filter isLowerOrDigit ∧
    (∀ c ∈ normalizeWord caseTable word, isLowerOrDigit c = true) ∧
    '_' ∉ normalizeWord caseTable word ∧
    normalizeWord caseTable (normalizeWord caseTable word) = normalizeWord caseTable word := by
  have h1 : normalizeWord caseTable word
      = (stringsToLower caseTable word).filter isLowerOrDigit := by
    unfold normalizeWord stringsToLower
    apply List.filter_congr
    intro c hc
    obtain ⟨c0, _, rfl⟩ := List.mem_map.mp hc
    exact isAlnum_eq_of_not_upper _ (unicodeToLower_not_upper caseTable hTable c0)
  have h2 : ∀ c ∈ normalizeWord caseTable word, isLowerOrDigit c = true := by
    intro c hc
    rw [h1] at hc
    exact (List.mem_filter.mp hc).2
  refine ⟨h1, h2, underscore_not_mem_normalizeWord caseTable word, ?_⟩
  have hmap : (normalizeWord caseTable word).map (unicodeToLower caseTable)
      = normalizeWord caseTable word := by
    conv_rhs => rw [← List.map_id (normalizeWord caseTable word)]
    apply List.map_congr_left
    intro c hc
    exact (unicodeToLower_of_isLowerOrDigit caseTable c (h2 c hc)).1
  have hfilter : (normalizeWord caseTable word).filter isAlnum
      = normalizeWord caseTable word := by
    rw [List.filter_eq_self]
    intro c hc
    exact (unicodeToLower_of_isLowerOrDigit caseTable c (h2 c hc)).2
  show ((normalizeWord caseTable word).map (unicodeToLower caseTable)).filter isAlnum = _
  rw [hmap, hfilter]

/-- Witness of C17: a word with capitals, punctuation and an underscore. -/
theorem normalizeWord_spec_witness :
    normalizeWord id "Don't_STOP!".toList = "dontstop".toList ∧
    normalizeWord id (normalizeWord id "Don't_STOP!".toList)
      = normalizeWord id "Don't_STOP!".toList :=
  ⟨by decide,
   (normalizeWord_spec id (fun c hc => by simp only [id]; have : 'Z'.toNat = 90 := rfl; omega)
    "Don't_STOP!".toList).2.2.2⟩

/-! ### The dispatcher -/

/-- A call of `ReadLine` that returns a non-empty line consumes input. -/
theorem readLine_rest_length (input : Str) (h : (readLine input).1 ≠ []) :
    (readLine input).2.2.length < input.length := by
  unfold readLine at h ⊢
  simp only [] at h ⊢
  by_cases h1 : '\n' ∈ input.take defaultBufSize
  · rw [if_pos h1]
    simp only [List.length_drop]
    have hmem : '\n' ∈ input := List.mem_of_mem_take h1
    have hne : input.dropWhile (fun c => decide (c ≠ '\n')) ≠ [] := by
      intro hnil
      rw [List.dropWhile_eq_nil_iff] at hnil
      have := hnil '\n' hmem
      simp at this
    have hpos : 0 < (input.dropWhile (fun c => decide (c ≠ '\n'))).length :=
      List.length_pos.mpr hne
    have hle : (input.dropWhile (fun c => decide (c ≠ '\n'))).length ≤ input.length :=
      (List.dropWhile_sublist _).length_le
    omega
  · rw [if_neg h1] at h ⊢
    by_cases h2 : defaultBufSize ≤ input.length
    · rw [if_pos h2]
      have hb : defaultBufSize = 4096 := rfl
      split <;> simp only [List.length_drop] <;> omega
    · rw [if_neg h2] at h ⊢
      exact List.length_pos.mpr h

theorem dispatchLoop_succ (fuel : Nat) (input : Str) :
    dispatchLoop (fuel + 1) input =
      if (readLine input).1.length ≠ 0 then
        (readLine input).1 :: dispatchLoop fuel (readLine input).2.2
      else [] := rfl

/-- The loop of the dispatcher ends: any fuel above the length of the input
gives the same items. -/
theorem dispatchLoop_of_lt (fuel : Nat) :
    ∀ input : Str, input.length < fuel → dispatchLoop fuel input = dispatch input := by
  induction fuel using Nat.strong_induction_on with
  | _ fuel ih =>
    intro input hlt
    cases fuel with
    | zero => omega
    | succ f =>
      unfold dispatch
      rw [dispatchLoop_succ, dispatchLoop_succ]
      by_cases hline : (readLine input).1.length ≠ 0
      · have hne : (readLine input).1 ≠ [] := fun h => hline (by rw [h]; rfl)
        have hrest := readLine_rest_length input hne
        rw [if_pos hline, if_pos hline, ih f (by omega) _ (by omega),
          ih input.length (by omega) _ hrest]
      · rw [if_neg hline, if_neg hline]

/-- The items of the dispatcher, one call of `ReadLine` at a time. -/
theorem dispatch_eq (input : Str) :
    dispatch input =
      if (readLine input).1.length ≠ 0 then (readLine input).1 :: dispatch (readLine input).2.2
      else [] := by
  conv_lhs => unfold dispatch
  rw [dispatchLoop_succ]
  by_cases hline : (readLine input).1.length ≠ 0
  · have hne : (readLine input).1 ≠ [] := fun h => hline (by rw [h]; rfl)
    rw [if_pos hline, if_pos hline,
      dispatchLoop_of_lt _ _ (readLine_rest_length input hne)]
  · rw [if_neg hline, if_neg hline]

/-- A line that fills the buffer is returned in part, with `isPrefix` set. -/
theorem readLine_buffer_full (chunk rest : Str) (hlen : chunk.length = defaultBufSize)
    (hnl : '\n' ∉ chunk) (hcr : chunk.getLast? ≠ some '\r') :
    readLine (chunk ++ rest) = (chunk, true, rest) := by
  have htake : (chunk ++ rest).take defaultBufSize = chunk := by
    rw [← hlen]; exact List.take_left' rfl
  have hdrop : (chunk ++ rest).drop defaultBufSize = rest := by
    rw [← hlen]; exact List.drop_left' rfl
  unfold readLine
  simp only [htake, hdrop]
  rw [if_neg hnl, if_pos (by rw [List.length_append]; omega), if_neg hcr]

theorem replicate_buffer_spec :
    (List.replicate defaultBufSize 'a').length = defaultBufSize ∧
    '\n' ∉ List.replicate defaultBufSize 'a' ∧
    (List.replicate defaultBufSize 'a').getLast? ≠ some '\r' := by
  refine ⟨List.length_replicate _ _, ?_, ?_⟩
  · intro h
    exact absurd (List.eq_of_mem_replicate h) (by decide)
  · intro h
    have hmem := List.mem_of_getLast?_eq_some h
    exact absurd (List.eq_of_mem_replicate hmem) (by decide)

/-- C12 fails on the code: a line of 4097 bytes is sent as two items, the
4096 bytes that fill the buffer of the reader and the byte left; and a line
of exactly 4096 bytes is sent, but the empty rest of it ends the reading, so
the record that follows is never sent. For short lines the records are sent
whole and in order, up to the first empty line. -/
theorem dispatch_splits_long_line :
    dispatch longLineInput = [List.replicate 4096 'a', "a".toList] ∧
    dispatch fullLineInput = [List.replicate 4096 'a'] ∧
    dispatch twoRecords = ["Alien, R, x".toList, "Babe, G, y".toList] ∧
    dispatch "Alien, R, x\n\nBabe, G, y\n".toList = ["Alien, R, x".toList] := by
  obtain ⟨h1, h2, h3⟩ := replicate_buffer_spec
  refine ⟨?_, ?_, by decide, by decide⟩
  · unfold longLineInput
    rw [dispatch_eq, readLine_buffer_full _ _ h1 h2 h3]
    have hne : (List.replicate defaultBufSize 'a').length ≠ 0 := by rw [h1]; decide
    simp only []
    rw [if_pos hne]
    have : dispatch "a\n".toList = ["a".toList] := by decide
    rw [this]
    rfl
  · unfold fullLineInput
    rw [dispatch_eq, readLine_buffer_full _ _ h1 h2 h3]
    have hne : (List.replicate defaultBufSize 'a').length ≠ 0 := by rw [h1]; decide
    simp only []
    rw [if_pos hne]
    have : dispatch "\nBabe, G, y\n".toList = [] := by decide
    rw [this]
    rfl

/-! ### The records of the join -/

/-- C14: the CSV of `outerJoinMovies` is the header line followed by one
record for each movie, in the order of the movies; a record holds the title,
the content rating and, for each column, the count of the movie for that
feature, and that count is 0 when the movie does not have the feature. -/
theorem outerJoinMovies_records (movies : List Movie) (featureSet : List Str)
    (pctMin pctMax : Int) :
    outerJoinMovies movies featureSet pctMin pctMax =
      ("title,content_rating,".toList
        ++ stringsJoin ",".toList (featuresSorted movies featureSet pctMin pctMax)
        ++ "\n".toList)
      ++ (movies.map (fun m => m.title ++ ",".toList ++ m.contentRating
          ++ ((featuresSorted movies featureSet pctMin pctMax).map
              (fun f => ",".toList ++ fmtInt (m.features.get f))).flatten
          ++ "\n".toList)).flatten ∧
    (movies.map (fun m => m.title ++ ",".toList ++ m.contentRating
          ++ ((featuresSorted movies featureSet pctMin pctMax).map
              (fun f => ",".toList ++ fmtInt (m.features.get f))).flatten
          ++ "\n".toList)).length = movies.length ∧
    (∀ (m : Movie) (f : Str), m.features.has f = false →
      m.features.get f = 0 ∧ fmtInt (m.features.get f) = "0".toList) := by
  refine ⟨foldl_writeRecord _ movies _, List.length_map _ _, ?_⟩
  intro m f h
  have h0 := CountMap.get_of_not_has m.features f h
  exact ⟨h0, by rw [h0]; decide⟩

/-- Witness of C14: the CSV of three movies; `babe` has no `cat`, `alien` and
`cujo` no positive `dog`. -/
theorem outerJoinMovies_records_witness :
    outerJoinMovies threeMovies ["emu".toList, "dog".toList, "cat".toList] 5 90
      = "title,content_rating,cat,dog\nalien,R,3,0\nbabe,PG,0,1\ncujo,R,3,0\n".toList ∧
    (dogMovie "babe").features.get "cat".toList = 0 :=
  ⟨by decide,
   ((outerJoinMovies_records threeMovies ["emu".toList, "dog".toList, "cat".toList] 5 90).2.2
      (dogMovie "babe") "cat".toList (by decide)).1⟩

/-! ### `main` of the join -/

theorem mem_setInsert (featureSet : List Str) (k t : Str) :
    t ∈ setInsert featureSet k ↔ t ∈ featureSet ∨ t = k := by
  unfold setInsert
  by_cases h : k ∈ featureSet
  · rw [if_pos h]
    constructor
    · exact Or.inl
    · rintro (h1 | h1)
      · exact h1
      · exact h1 ▸ h
  · rw [if_neg h]
    simp

theorem readColumns_mem (featureValues : List Str) (names : List Str) :
    ∀ (i : Nat) (featureSet : List Str) (features : CountMap) (featureSet' : List Str)
      (features' : CountMap),
      readColumns featureValues i names featureSet features = .ok (featureSet', features') →
      ∀ t : Str, t ∈ featureSet' ↔ t ∈ featureSet ∨ t ∈ names := by
  induction names with
  | nil =>
    intro i featureSet features featureSet' features' h t
    simp only [readColumns, Except.ok.injEq, Prod.mk.injEq] at h
    rw [← h.1]
    simp
  | cons name rest ih =>
    intro i featureSet features featureSet' features' h t
    unfold readColumns at h
    cases hv : featureValues.get? (i + 1) with
    | none => rw [hv] at h; exact absurd h (by simp)
    | some value =>
      rw [hv] at h
      rw [ih _ _ _ _ _ h t, mem_setInsert, List.mem_cons]
      tauto

/-- What one round of the loop over the files adds to the feature set: the
fields of the first line of the file, after the first one. -/
theorem readFile_spec (st st' : JoinState) (f : DirEntry) (h : readFile st f = .ok st') :
    (∀ t : Str, t ∈ st'.featureSet ↔
      (t ∈ st.featureSet ∨ (f.isDir = false ∧ ∃ bytes : Str, f.contents = some bytes ∧
        t ∈ (stringsSplit ',' (readString '\n' bytes).1).tail))) ∧
    st'.movies.length ≤ st.movies.length + 1 := by
  unfold readFile at h
  by_cases hdir : f.isDir = true
  · rw [if_pos hdir] at h
    simp only [Except.ok.injEq] at h
    subst h
    simp [hdir]
  · rw [if_neg hdir] at h
    have hdir' : f.isDir = false := by simpa using hdir
    cases hc : f.contents with
    | none => rw [hc] at h; exact absurd h (by simp)
    | some bytes =>
      rw [hc] at h
      simp only [] at h
      split at h
      · exact absurd h (by simp)
      · split at h
        · exact absurd h (by simp)
        · rename_i featureSet counts hcols
          simp only [Except.ok.injEq] at h
          subst h
          refine ⟨?_, by simp⟩
          intro t
          rw [readColumns_mem _ _ _ _ _ _ _ hcols t]
          simp [hdir']

theorem readFiles_spec (files : List DirEntry) :
    ∀ (st st' : JoinState), readFiles files st = .ok st' →
      (∀ t : Str, t ∈ st'.featureSet ↔
        (t ∈ st.featureSet ∨ ∃ f ∈ files, f.isDir = false ∧ ∃ bytes : Str,
          f.contents = some bytes ∧
          t ∈ (stringsSplit ',' (readString '\n' bytes).1).tail)) ∧
      st'.movies.length ≤ st.movies.length + files.length := by
  induction files with
  | nil =>
    intro st st' h
    simp only [readFiles, Except.ok.injEq] at h
    subst h
    simp
  | cons f rest ih =>
    intro st st' h
    unfold readFiles at h
    cases hf : readFile st f with
    | error stop => rw [hf] at h; exact absurd h (by simp)
    | ok st1 =>
      rw [hf] at h
      obtain ⟨h1, h2⟩ := readFile_spec st st1 f hf
      obtain ⟨h3, h4⟩ := ih st1 st' h
      refine ⟨?_, by rw [List.length_cons]; omega⟩
      intro t
      rw [h3 t, h1 t]
      simp only [List.mem_cons, exists_eq_or_imp]
      exact or_assoc

/-- Within the range of `int`, the sorted columns are the features of the set
that occur in a share of the movies between the two bounds. -/
theorem mem_featuresSorted_of_inRange (movies : List Movie) (featureSet : List Str)
    (pctMin pctMax : Int)
    (hn : 100 * (movies.length : Int) < 2 ^ 63)
    (hmin : -2 ^ 63 ≤ (movies.length : Int) * pctMin ∧ (movies.length : Int) * pctMin < 2 ^ 63)
    (hmax : -2 ^ 63 ≤ (movies.length : Int) * pctMax ∧ (movies.length : Int) * pctMax < 2 ^ 63)
    (f : Str) :
    f ∈ featuresSorted movies featureSet pctMin pctMax ↔
      (f ∈ featureSet ∧
        (movies.length : Int) * pctMin ≤ 100 * (occurrences movies f : Int) ∧
        100 * (occurrences movies f : Int) ≤ (movies.length : Int) * pctMax) := by
  rw [mem_featuresSorted, featureOccurrences_eq]
  have hocc := occurrences_le_length movies f
  have hc : wrapInt ((occurrences movies f : Int) * 100) = (occurrences movies f : Int) * 100 :=
    wrapInt_of_inRange _ (by omega) (by omega)
  simp only [deleted, hc, wrapInt_of_inRange _ hmin.1 hmin.2,
    wrapInt_of_inRange _ hmax.1 hmax.2, Bool.or_eq_false_iff, decide_eq_false_iff_not,
    not_lt, gt_iff_lt]
  constructor
  · rintro ⟨h1, h2, h3⟩
    exact ⟨h1, by omega, by omega⟩
  · rintro ⟨h1, h2, h3⟩
    exact ⟨h1, by omega, by omega⟩

/-- What `main` computes when it reads all the files (with `n` movies,
`100*n` in the range of `int`): it prints the join of the movies with the
bounds 5 and 90; the feature set holds the fields, after the first one, of
the first lines of the files as `main` splits them, the newline included; and
a key of the feature set is a column of the CSV exactly when the count that
`main` has recorded for it is positive in at least 5 and at most 90 percent
of the movies. -/
theorem joinMain_columns (files : List DirEntry) (st : JoinState)
    (hsize : 100 * (files.length : Int) < 2 ^ 63)
    (hrun : readFiles files { featureSet := [], movies := [] } = .ok st) :
    joinMain files = .ok (outerJoinMovies st.movies st.featureSet 5 90) ∧
    (∀ term : Str, term ∈ st.featureSet ↔
      ∃ f ∈ files, f.isDir = false ∧ ∃ bytes : Str, f.contents = some bytes ∧
        term ∈ (stringsSplit ',' (readString '\n' bytes).1).tail) ∧
    (∀ term : Str, term ∈ featuresSorted st.movies st.featureSet 5 90 ↔
      (term ∈ st.featureSet ∧
        (st.movies.length : Int) * 5 ≤ 100 * (occurrences st.movies term : Int) ∧
        100 * (occurrences st.movies term : Int) ≤ (st.movies.length : Int) * 90)) := by
  obtain ⟨hset, hlen⟩ := readFiles_spec files _ st hrun
  have hlen' : st.movies.length ≤ files.length := by simpa using hlen
  refine ⟨?_, ?_, ?_⟩
  · unfold joinMain
    rw [hrun]
  · intro term
    rw [hset term]
    simp
  · intro term
    exact mem_featuresSorted_of_inRange st.movies st.featureSet 5 90 (by omega)
      ⟨by omega, by omega⟩ ⟨by omega, by omega⟩ term

/-- C15 fails on the code. The files of two movies list the terms `ape`,
`cat`, `dog` (alien) and `ape`, `dog`, `emu` (babe); the CSV has the columns
`cat` and `dog` only. The last term of each first line is recorded with the
newline that `ReadString` leaves on the line, and its value, `1` and a
newline, is no integer: `emu` is recorded as `emu` and a newline with count 0
and is no column, and the count 1 of `dog` for alien is printed as 0. The term
`ape`, in both movies, is removed by the bound of 90 percent; with one movie
every term is. -/
theorem joinMain_loses_terms :
    joinMain twoMovieDir
      = .ok "title,content_rating,cat,dog\nalien,R,3,0\nbabe,PG,0,2\n".toList ∧
    (∃ st : JoinState, readFiles twoMovieDir { featureSet := [], movies := [] } = .ok st ∧
      st.featureSet = ["ape".toList, "cat".toList, "dog\n".toList, "dog".toList,
        "emu\n".toList] ∧
      featuresSorted st.movies st.featureSet 5 90 = ["cat".toList, "dog".toList]) ∧
    joinMain oneMovieDir = .ok "title,content_rating,\nalien,R\n".toList :=
  ⟨rfl, ⟨_, rfl, by decide, by decide⟩, rfl⟩

end MpaaML
